import Mathlib

/-!
Shallow embedding of the ftreecmp tree-differencing engine (src/ftreecmp.c,
src/fstate.c, and the reporting module) together with proofs about its
merge-walk, change classification, content comparison and build-id location
logic.  Filesystem objects are modelled as inductive trees whose lazily
populated fields (stat buffer, link target, directory listing, file chunks)
carry the outcome of the underlying system call, so that I/O failures are
representable.  A result of none models a crash (dereference of a NULL
snapshot); some (events, status) models a normal return with the reports
pushed to the Reporter and the boolean status the C function returns.
-/

namespace Ftreecmp

/-- Byte strings: file names and symlink targets.  A C string is a sequence of
nonzero bytes; we model it as a list of naturals. -/
abbrev Name := List Nat

/-- Model of strcmp(3) on byte strings as a three-way comparison: the first
differing byte decides, and a proper prefix compares below the longer string
(its NUL terminator is below any nonzero byte). -/
def strcmpO : Name → Name → Ordering
  | [], [] => .eq
  | [], _ :: _ => .lt
  | _ :: _, [] => .gt
  | a :: as, b :: bs =>
    if a < b then .lt else if b < a then .gt else strcmpO as bs

/-- Change bit FSTATE_CHANGED_CRIT (fstate.h): file type, owner, privileged
bits. -/
def FSTATE_CHANGED_CRIT : Nat := 0x0001
/-- Change bit FSTATE_CHANGED_MODE (fstate.h): file permission bits. -/
def FSTATE_CHANGED_MODE : Nat := 0x0002
/-- Change bit FSTATE_CHANGED_DATA (fstate.h): content, link target, device
numbers. -/
def FSTATE_CHANGED_DATA : Nat := 0x0004
/-- Disposition bit FSTATE_CHANGED_ADDED (fstate.h). -/
def FSTATE_CHANGED_ADDED : Nat := 0x0010
/-- Disposition bit FSTATE_CHANGED_REMOVED (fstate.h). -/
def FSTATE_CHANGED_REMOVED : Nat := 0x0020

/-- Mode bit S_ISUID. -/
def S_ISUID : Nat := 0o4000
/-- Mode bit S_ISGID. -/
def S_ISGID : Nat := 0o2000
/-- Mode bit S_ISVTX. -/
def S_ISVTX : Nat := 0o1000
/-- ALLPERMS as defined by glibc sys/stat.h: all twelve permission bits,
07777 = setuid, setgid, sticky plus rwx for user, group and other. -/
def ALLPERMS : Nat := 0o7777

/-- The fields of struct stat that the comparator reads (populated by lstat in
fstate_stat, fstate.c:105). -/
structure Meta where
  mode : Nat
  uid : Nat
  gid : Nat
  size : Nat
  rdev : Nat
deriving DecidableEq

/-- Mirror of struct ignore_range (ftreecmp.c:143): a byte range of a file that
is excluded from the content comparison. -/
structure IgnoreRange where
  offset : Nat
  size : Nat
deriving DecidableEq

/-- Model of ignored_range_whiteout (ftreecmp.c:252).  The chunk buffer buf
starts at absolute file offset; the function zeroes the part of the buffer
covered by the ignore range skip, with two early returns when the range lies
entirely before or after the chunk, and a third early return when the end of
the range lies beyond the end of the chunk.  All offsets are nonnegative in
every call the program makes, so loff_t arithmetic is plain arithmetic; the
clamping of a negative relative_start to zero coincides with truncated
natural subtraction. -/
def ignored_range_whiteout (skip : IgnoreRange) (buf : List Nat) (offset : Nat) :
    List Nat :=
  if skip.offset + skip.size ≤ offset then buf
  else if skip.offset ≥ offset + buf.length then buf
  else
    let relative_end := skip.offset + skip.size - offset
    if buf.length < relative_end then buf
    else
      let relative_start := skip.offset - offset
      buf.mapIdx (fun i b => if relative_start ≤ i ∧ i < relative_end then 0 else b)

/-- Modulus of C unsigned int arithmetic (32 bits), used by the index
computation in elf_locate_build_id. -/
def U32 : Nat := 4294967296

/-- The scan loop of elf_locate_build_id (ftreecmp.c:179): index of the first
zero byte of the section payload, or its length when no NUL occurs. -/
def nul_scan : List Nat → Nat
  | [] => 0
  | b :: rest => if b = 0 then 0 else 1 + nul_scan rest

/-- Model of elf_locate_build_id (ftreecmp.c:152).  The parameters offset,
size and align come from the .gnu_debuglink section header; data stands for
the size bytes the function reads from the file at offset (the lseek and the
read are modelled as succeeding and returning data; a short read is the case
data.length different from size).  The index k is a C unsigned int, so the
padding computation k = ((k + align - 1) & not (align - 1)) is performed
modulo 2^32, which matters when align = 0. -/
def elf_locate_build_id (offset size align : Nat) (data : List Nat) :
    Option IgnoreRange :=
  if size > 2048 then none
  else
    let am1 : Nat := (align + (U32 - 1)) % U32
    if Nat.land align am1 ≠ 0 then none
    else if data.length ≠ size then none
    else
      let k0 := nul_scan data
      let k1 := (k0 + 1) % U32
      let k2 := Nat.land ((k1 + am1) % U32) (Nat.xor am1 (U32 - 1))
      if k2 ≥ size then none
      else if size - k2 ≠ 4 ∧ size - k2 ≠ 8 then none
      else some ⟨offset + k2, size - k2⟩

/-- Outcome of one read(2) call on an open regular file: a byte chunk (of at
most 8192 bytes in the program; the bound is not correctness relevant), or a
read error (negative return value). -/
inductive RChunk where
  | ok (bytes : List Nat)
  | err
deriving DecidableEq

/-- Reading the next chunk of a file modelled as the list of its successive
read results: once the list is exhausted the file is at end of file and
read(2) returns zero bytes. -/
def headRead : List RChunk → RChunk
  | [] => .ok []
  | c :: _ => c

/-- The masking step of the comparison loop (ftreecmp.c:322-325): when an
ignore range is active both chunk buffers are whited out, otherwise they are
left alone. -/
def applySkip : Option IgnoreRange → List Nat → Nat → List Nat
  | none, buf, _ => buf
  | some s, buf, offset => ignored_range_whiteout s buf offset

/-- The read-and-compare loop of compare_regular_files (ftreecmp.c:305-336):
read one chunk from each file (a failed read ends the loop with status
false), mask both chunks when an ignore range is active, compare lengths and
masked bytes (a mismatch ends the loop with status false), and stop with
status true when a zero-length chunk is reached. -/
def crf_loop (skip : Option IgnoreRange) (offset : Nat)
    (old_chunks new_chunks : List RChunk) : Bool :=
  match hOld : headRead old_chunks with
  | .err => false
  | .ok old_buf =>
    match headRead new_chunks with
    | .err => false
    | .ok new_buf =>
      if old_buf.length ≠ new_buf.length
          ∨ applySkip skip old_buf offset ≠ applySkip skip new_buf offset then
        false
      else if hz : old_buf.length = 0 then true
      else crf_loop skip (offset + old_buf.length) old_chunks.tail new_chunks.tail
termination_by old_chunks.length
decreasing_by
  cases old_chunks with
  | nil => simp [headRead] at hOld; simp [hOld] at hz
  | cons c cs => simp

/-- Model of compare_regular_files (ftreecmp.c:277).  The stat buffers were
populated by the caller; old_open and new_open are the outcomes of
fstate_open on either side; old_bid and new_bid are the ignore ranges that
elf_identify_debug_section locates in either file (none when the ELF
inspection finds no valid .gnu_debuglink build id, and always none when the
elf-buildid ignore policy is disabled, which the parameter policy captures);
the chunk lists are the successive read results.  The ranges are used only
when both are found and structurally identical (the memcmp at
ftreecmp.c:299). -/
def compare_regular_files (policy : Bool) (old_stb new_stb : Meta)
    (old_open new_open : Bool) (old_bid new_bid : Option IgnoreRange)
    (old_chunks new_chunks : List RChunk) : Bool :=
  if old_stb.size ≠ new_stb.size then false
  else if !old_open then false
  else if !new_open then false
  else
    let skip : Option IgnoreRange :=
      if policy then
        match old_bid, new_bid with
        | some ob, some nb => if ob = nb then some ob else none
        | _, _ => none
      else none
    crf_loop skip 0 old_chunks new_chunks

/-- Entry kinds, the readdir d_type values that ftreecmp dispatches on
(DT_REG, DT_DIR, DT_LNK, DT_CHR, DT_BLK, and everything else). -/
inductive FType where
  | reg
  | dir
  | lnk
  | chr
  | blk
  | other
deriving DecidableEq

mutual
/-- One directory entry, struct fstate (fstate.h:280).  The lazily populated
fields are modelled by the memoised outcome of the underlying system call:
st is the lstat outcome (none when it fails), open_ok whether open(2)
succeeds, bid the ignore range elf_identify_debug_section locates in the
file (none when the inspection finds none), chunks the successive read
results, entries the dstate_read outcome of a directory, target the readlink
outcome of a symlink. -/
inductive FNode where
  | reg (st : Option Meta) (open_ok : Bool) (bid : Option IgnoreRange)
        (chunks : List RChunk)
  | dir (st : Option Meta) (entries : DirListing)
  | lnk (st : Option Meta) (target : Option Name)
  | chr (st : Option Meta)
  | blk (st : Option Meta)
  | other (st : Option Meta)
deriving DecidableEq

/-- Outcome of enumerating a directory: fail models a dstate_read failure
(opendir error, fstate.c:188), after which fstate_descend returns NULL. -/
inductive DirListing where
  | fail
  | ok (l : EntryList)
deriving DecidableEq

/-- The entry array of one directory snapshot, struct dstate (fstate.h:299),
in the order left by the qsort on byte-wise names (fstate.c:202). -/
inductive EntryList where
  | nil
  | cons (name : Name) (node : FNode) (rest : EntryList)
deriving DecidableEq
end

/-- The d_type tag of an entry, struct fstate member type. -/
def nodeType : FNode → FType
  | .reg .. => .reg
  | .dir .. => .dir
  | .lnk .. => .lnk
  | .chr _ => .chr
  | .blk _ => .blk
  | .other _ => .other

/-- Model of fstate_stat (fstate.c:105): the memoised lstat outcome. -/
def fstate_stat : FNode → Option Meta
  | .reg st .. => st
  | .dir st _ => st
  | .lnk st _ => st
  | .chr st => st
  | .blk st => st
  | .other st => st

/-- One line handed to the Reporter by report_changed_file: the change and
disposition bits, the full path of the entry, and its kind (which selects the
rendering). -/
structure Report where
  how : Nat
  path : List Name
  ftype : FType
deriving DecidableEq

/-- Observable behaviour of the engine: reports pushed to the Reporter, plus
one cmp marker for each invocation of the matched-pair comparison
compare_files from the merge loop (ftreecmp.c:133). -/
inductive Event where
  | rpt (r : Report)
  | cmp (path : List Name)
deriving DecidableEq

/-- Model of report_changed_file (reporting module): stat the entry (return
false, modelled none, when that fails), for a symlink also read its target
(false on failure), then render one report line. -/
def report_changed_file (how : Nat) (path : List Name) (name : Name)
    (n : FNode) : Option Report :=
  match fstate_stat n with
  | none => none
  | some _ =>
    match n with
    | .lnk _ none => none
    | _ => some ⟨how, path ++ [name], nodeType n⟩

/-- Events produced by one report_changed_file call whose boolean result the
caller ignores: a failed call reports nothing. -/
def optEvents : Option Report → List Event
  | none => []
  | some r => [Event.rpt r]

mutual
/-- Model of report_recursively (ftreecmp.c:418): stat the entry (status
false when that fails), report it, and for a directory descend and report
every child with the same disposition, anding the children's statuses.  The
result none models the crash when fstate_descend fails: the NULL subdir
pointer is dereferenced by dstate_current_entry (ftreecmp.c:437-438,
fstate.c:210). -/
def report_recursively (how : Nat) (path : List Name) (name : Name)
    (n : FNode) : Option (List Event × Bool) :=
  match fstate_stat n with
  | none => some ([], false)
  | some _ =>
    match report_changed_file how path name n with
    | none => some ([], false)
    | some r =>
      match n with
      | .dir _ .fail => none
      | .dir _ (.ok l) =>
        match report_list how (path ++ [name]) l with
        | none => none
        | some (evs, st) => some (Event.rpt r :: evs, st)
      | _ => some ([Event.rpt r], true)
termination_by sizeOf n

/-- The loop over a subdirectory's entries inside report_recursively
(ftreecmp.c:438-442): each child is reported recursively and a failing child
makes the status false without stopping the loop. -/
def report_list (how : Nat) (path : List Name) (l : EntryList) :
    Option (List Event × Bool) :=
  match l with
  | .nil => some ([], true)
  | .cons nm nd rest =>
    match report_recursively how path nm nd with
    | none => none
    | some (evs1, st1) =>
      match report_list how path rest with
      | none => none
      | some (evs2, st2) => some (evs1 ++ evs2, st1 && st2)
termination_by sizeOf l
end

/-- The drain loops of compare_directories (ftreecmp.c:109-123): when one
side is exhausted, every remaining entry of the other side is reported
recursively and the cursor advanced; the boolean result of
report_recursively is ignored there, so the loop yields no status. -/
def drain (how : Nat) (path : List Name) : EntryList → Option (List Event)
  | .nil => some []
  | .cons nm nd rest =>
    match report_recursively how path nm nd with
    | none => none
    | some (evs, _) =>
      match drain how path rest with
      | none => none
      | some evs2 => some (evs ++ evs2)

/-- The change-flag computation of compare_files (ftreecmp.c:363-369):
critical when the privileged bits (setuid, setgid, sticky) of the two modes
differ or the owning user or group differs; mode when any ALLPERMS bit of
the two modes differs. -/
def metadata_change_bits (old_stb new_stb : Meta) : Nat :=
  let how1 : Nat :=
    if Nat.land (S_ISUID ||| S_ISGID ||| S_ISVTX)
        (Nat.xor old_stb.mode new_stb.mode) ≠ 0
    then FSTATE_CHANGED_CRIT else 0
  let how2 : Nat :=
    if old_stb.uid ≠ new_stb.uid ∨ old_stb.gid ≠ new_stb.gid
    then FSTATE_CHANGED_CRIT else 0
  let how3 : Nat :=
    if Nat.land ALLPERMS (Nat.xor old_stb.mode new_stb.mode) ≠ 0
    then FSTATE_CHANGED_MODE else 0
  how1 ||| how2 ||| how3

/-- The record pair a matched same-kind comparison emits when its change
flag set how is non-empty (ftreecmp.c:399-402): the removed-old and the
added-new rendering of the pair, both carrying how. -/
def pair_records (how : Nat) (path : List Name) (name : Name)
    (t1 t2 : FType) : List Event :=
  if how ≠ 0 then
    [Event.rpt ⟨how ||| FSTATE_CHANGED_REMOVED, path ++ [name], t1⟩,
     Event.rpt ⟨how ||| FSTATE_CHANGED_ADDED, path ++ [name], t2⟩]
  else []

mutual
/-- Model of compare_files (ftreecmp.c:348), the matched-pair comparison.
When the entry kinds differ the pair is reported as removed-old plus
added-new (the boolean results of the two report calls are ignored) and the
status is true.  Otherwise both sides are statted (status false when either
fails), the metadata change bits are computed, the kind-specific data check
runs (content for regular files, target for symlinks with status false when
a target is unreadable, device number for devices, nothing otherwise), a
non-empty flag set emits the removed-old and added-new record pair, and a
directory pair descends into fresh snapshots of both subdirectories.  The
result none models the crash when either subdirectory cannot be enumerated:
fstate_descend returns NULL (fstate.c:83-86) and compare_directories
dereferences it (ftreecmp.c:103-104). -/
def compare_files (policy : Bool) (path : List Name) (name : Name)
    (old new : FNode) : Option (List Event × Bool) :=
  if nodeType old ≠ nodeType new then
    some (optEvents (report_changed_file FSTATE_CHANGED_REMOVED path name old)
        ++ optEvents (report_changed_file FSTATE_CHANGED_ADDED path name new),
      true)
  else
    match fstate_stat old, fstate_stat new with
    | none, _ => some ([], false)
    | some _, none => some ([], false)
    | some old_stb, some new_stb =>
      let ds : Nat × Bool :=
        match old, new with
        | .reg _ old_open old_bid old_chunks, .reg _ new_open new_bid new_chunks =>
          (if compare_regular_files policy old_stb new_stb old_open new_open
              old_bid new_bid old_chunks new_chunks
           then 0 else FSTATE_CHANGED_DATA, true)
        | .lnk _ old_target, .lnk _ new_target =>
          match old_target, new_target with
          | some old_link, some new_link =>
            (if old_link ≠ new_link then FSTATE_CHANGED_DATA else 0, true)
          | _, _ => (0, false)
        | .chr _, .chr _ =>
          (if old_stb.rdev ≠ new_stb.rdev then FSTATE_CHANGED_DATA else 0, true)
        | .blk _, .blk _ =>
          (if old_stb.rdev ≠ new_stb.rdev then FSTATE_CHANGED_DATA else 0, true)
        | _, _ => (0, true)
      let how : Nat := metadata_change_bits old_stb new_stb ||| ds.1
      let pairEvents : List Event :=
        if how ≠ 0 then
          optEvents (report_changed_file (how ||| FSTATE_CHANGED_REMOVED)
              path name old)
            ++ optEvents (report_changed_file (how ||| FSTATE_CHANGED_ADDED)
              path name new)
        else []
      match old, new with
      | .dir _ old_entries, .dir _ new_entries =>
        match old_entries, new_entries with
        | .fail, _ => none
        | _, .fail => none
        | .ok ol, .ok nl =>
          match compare_directories policy (path ++ [name]) ol nl with
          | none => none
          | some (evs, st) => some (pairEvents ++ evs, st)
      | _, _ => some (pairEvents, ds.2)
termination_by sizeOf old + sizeOf new

/-- Model of compare_directories (ftreecmp.c:94), the sorted merge-walk over
two directory snapshots.  When one cursor is exhausted the other side is
drained as added or removed; otherwise the current names are compared
byte-wise and the smaller side is reported (its recursive report status is
ignored, ftreecmp.c:127-131) and advanced, or a matched pair runs
compare_files (marked by a cmp event) whose status is anded into the loop
status.  The result none models a crash further down. -/
def compare_directories (policy : Bool) (path : List Name)
    (olds news : EntryList) : Option (List Event × Bool) :=
  match olds, news with
  | .nil, _ =>
    match drain FSTATE_CHANGED_ADDED path news with
    | none => none
    | some evs => some (evs, true)
  | _, .nil =>
    match drain FSTATE_CHANGED_REMOVED path olds with
    | none => none
    | some evs => some (evs, true)
  | .cons old_name old_node orest, .cons new_name new_node nrest =>
    match strcmpO old_name new_name with
    | .lt =>
      match report_recursively FSTATE_CHANGED_REMOVED path old_name old_node with
      | none => none
      | some (evs1, _) =>
        match compare_directories policy path orest (.cons new_name new_node nrest) with
        | none => none
        | some (evs2, st) => some (evs1 ++ evs2, st)
    | .gt =>
      match report_recursively FSTATE_CHANGED_ADDED path new_name new_node with
      | none => none
      | some (evs1, _) =>
        match compare_directories policy path (.cons old_name old_node orest) nrest with
        | none => none
        | some (evs2, st) => some (evs1 ++ evs2, st)
    | .eq =>
      match compare_files policy path old_name old_node new_node with
      | none => none
      | some (evs1, st1) =>
        match compare_directories policy path orest nrest with
        | none => none
        | some (evs2, st2) =>
          some (Event.cmp (path ++ [old_name]) :: (evs1 ++ evs2), st1 && st2)
termination_by sizeOf olds + sizeOf news
end

/-- Model of main (ftreecmp.c:72-88): read both root snapshots and run the
merge-walk; the exit status is 1 when either root cannot be read or the walk
returns false, else 0.  The result none models a crash during the walk. -/
def main_exitval (policy : Bool) (old_root new_root : DirListing) : Option Nat :=
  match old_root with
  | .fail => some 1
  | .ok ol =>
    match new_root with
    | .fail => some 1
    | .ok nl =>
      match compare_directories policy [] ol nl with
      | none => none
      | some (_, st) => some (if st then 0 else 1)

/-- Path of an event (the path rendered for a report, or the path of the
matched pair a cmp marker stands for). -/
def evPath : Event → List Name
  | .rpt r => r.path
  | .cmp p => p

/-- Whether an event is a report pushed to the Reporter (rather than a cmp
marker). -/
def isRpt : Event → Bool
  | .rpt _ => true
  | .cmp _ => false

/-- The change records among a list of events. -/
def reportsOf (evs : List Event) : List Event := evs.filter isRpt

/-- First component of an event's path (paths are never empty in the
engine's output). -/
def headName (e : Event) : Name := (evPath e).headI

/-- Events whose path starts with the top-level name n. -/
def filterHead (n : Name) (evs : List Event) : List Event :=
  evs.filter (fun e => decide ((evPath e).head? = some n))

mutual
/-- Specification-side description of the report_recursively output on a
fully readable subtree: one report per node, depth-first, children in list
order, every report carrying the same disposition bits how. -/
def flatten (how : Nat) (path : List Name) (name : Name) : FNode → List Event
  | .dir _ (.ok l) =>
    Event.rpt ⟨how, path ++ [name], .dir⟩ :: flattenL how (path ++ [name]) l
  | .dir _ .fail => [Event.rpt ⟨how, path ++ [name], .dir⟩]
  | .reg _ _ _ _ => [Event.rpt ⟨how, path ++ [name], .reg⟩]
  | .lnk _ _ => [Event.rpt ⟨how, path ++ [name], .lnk⟩]
  | .chr _ => [Event.rpt ⟨how, path ++ [name], .chr⟩]
  | .blk _ => [Event.rpt ⟨how, path ++ [name], .blk⟩]
  | .other _ => [Event.rpt ⟨how, path ++ [name], .other⟩]
termination_by n => sizeOf n

/-- List form of flatten over the entries of one directory. -/
def flattenL (how : Nat) (path : List Name) : EntryList → List Event
  | .nil => []
  | .cons nm nd rest => flatten how path nm nd ++ flattenL how path rest
termination_by l => sizeOf l
end

mutual
/-- The paths of all nodes of a subtree rooted at name under path: the root
first, then the descendants depth-first in list order. -/
def subtreePaths (path : List Name) (name : Name) : FNode → List (List Name)
  | .dir _ (.ok l) => (path ++ [name]) :: subtreePathsL (path ++ [name]) l
  | .dir _ .fail => [path ++ [name]]
  | .reg _ _ _ _ => [path ++ [name]]
  | .lnk _ _ => [path ++ [name]]
  | .chr _ => [path ++ [name]]
  | .blk _ => [path ++ [name]]
  | .other _ => [path ++ [name]]
termination_by n => sizeOf n

/-- List form of subtreePaths over the entries of one directory. -/
def subtreePathsL (path : List Name) : EntryList → List (List Name)
  | .nil => []
  | .cons nm nd rest => subtreePaths path nm nd ++ subtreePathsL path rest
termination_by l => sizeOf l
end

mutual
/-- All filesystem operations on this subtree succeed: every lstat, every
open and read of a regular file, every readlink, every directory
enumeration. -/
def okDeep : FNode → Bool
  | .reg st op _ chunks =>
    st.isSome && op && chunks.all (fun c => match c with | .ok _ => true | .err => false)
  | .dir st es =>
    st.isSome && (match es with | .fail => false | .ok l => okDeepL l)
  | .lnk st t => st.isSome && t.isSome
  | .chr st => st.isSome
  | .blk st => st.isSome
  | .other st => st.isSome
termination_by n => sizeOf n

/-- List form of okDeep over the entries of one directory. -/
def okDeepL : EntryList → Bool
  | .nil => true
  | .cons _ nd rest => okDeep nd && okDeepL rest
termination_by l => sizeOf l
end

/-- The names of a snapshot's entries, in list order. -/
def namesOf : EntryList → List Name
  | .nil => []
  | .cons nm _ rest => nm :: namesOf rest

/-- Lookup of an entry by name. -/
def lookupE : EntryList → Name → Option FNode
  | .nil, _ => none
  | .cons nm nd rest, n => if n = nm then some nd else lookupE rest n

/-- Strictly ascending by byte-wise name order, the invariant dstate_read
establishes by sorting (names within one directory are unique). -/
def sortedB : EntryList → Bool
  | .nil => true
  | .cons nm _ rest =>
    (match rest with
     | .nil => true
     | .cons nm2 _ _ => strcmpO nm nm2 == Ordering.lt) && sortedB rest

/-- Fixture: stat buffer of a plain file, mode 0644, one byte long. -/
def mA : Meta := ⟨0o644, 0, 0, 1, 0⟩

/-- Fixture: stat buffer with the setuid bit, mode 04755. -/
def mSuid : Meta := ⟨0o4755, 0, 0, 0, 0⟩

/-- Fixture: stat buffer with mode 0755 and otherwise equal to mSuid. -/
def mPlain : Meta := ⟨0o755, 0, 0, 0, 0⟩

/-- The operations report_changed_file performs on an entry succeed: its
lstat, and for a symlink also its readlink. -/
def reportable : FNode → Bool
  | .lnk st t => st.isSome && t.isSome
  | n => (fstate_stat n).isSome

/-! Order theory of the byte-wise name comparison. -/

theorem strcmpO_self (a : Name) : strcmpO a a = .eq := by
  induction a with
  | nil => rfl
  | cons x xs ih => simp [strcmpO, ih]

theorem strcmpO_swap (a b : Name) : strcmpO b a = (strcmpO a b).swap := by
  induction a generalizing b with
  | nil => cases b <;> rfl
  | cons x xs ih =>
    cases b with
    | nil => rfl
    | cons y ys =>
      simp only [strcmpO]
      rcases Nat.lt_trichotomy x y with hxy | hxy | hxy
      · simp [hxy, Nat.lt_asymm hxy, Ordering.swap]
      · subst hxy
        simp [Nat.lt_irrefl, ih ys]
      · simp [hxy, Nat.lt_asymm hxy, Ordering.swap]

theorem strcmpO_eq_iff (a b : Name) : strcmpO a b = .eq ↔ a = b := by
  induction a generalizing b with
  | nil => cases b <;> simp [strcmpO]
  | cons x xs ih =>
    cases b with
    | nil => simp [strcmpO]
    | cons y ys =>
      simp only [strcmpO]
      rcases Nat.lt_trichotomy x y with hxy | hxy | hxy
      · rw [if_pos hxy]; simp; omega
      · rw [if_neg (by omega), if_neg (by omega)]
        simp [ih, hxy]
      · rw [if_neg (by omega), if_pos hxy]; simp; omega

theorem strcmpO_lt_trans {a b c : Name} (hab : strcmpO a b = .lt)
    (hbc : strcmpO b c = .lt) : strcmpO a c = .lt := by
  induction a generalizing b c with
  | nil =>
    cases b with
    | nil => exact absurd hab (by simp [strcmpO])
    | cons y ys =>
      cases c with
      | nil => exact absurd hbc (by simp [strcmpO])
      | cons z zs => simp [strcmpO]
  | cons x xs ih =>
    cases b with
    | nil => exact absurd hab (by simp [strcmpO])
    | cons y ys =>
      cases c with
      | nil => exact absurd hbc (by simp [strcmpO])
      | cons z zs =>
        simp only [strcmpO] at hab hbc ⊢
        rcases Nat.lt_trichotomy x y with hxy | hxy | hxy
        · rcases Nat.lt_trichotomy y z with hyz | hyz | hyz
          · rw [if_pos (by omega)]
          · rw [if_pos (by omega)]
          · rw [if_neg (by omega), if_pos hyz] at hbc
            exact absurd hbc (by simp)
        · rw [if_neg (by omega), if_neg (by omega)] at hab
          rcases Nat.lt_trichotomy y z with hyz | hyz | hyz
          · rw [if_pos (by omega)]
          · rw [if_neg (by omega), if_neg (by omega)] at hbc
            rw [if_neg (by omega), if_neg (by omega)]
            exact ih hab hbc
          · rw [if_neg (by omega), if_pos hyz] at hbc
            exact absurd hbc (by simp)
        · rw [if_neg (by omega), if_pos hxy] at hab
          exact absurd hab (by simp)

theorem strcmpO_lt_ne {a b : Name} (h : strcmpO a b = .lt) : a ≠ b := by
  intro heq; subst heq; simp [strcmpO_self] at h

theorem strcmpO_lt_not_gt {a b : Name} (h : strcmpO a b = .lt) :
    strcmpO a b ≠ .gt := by rw [h]; simp

/-! Properties of the whiteout step (claim C4). -/

theorem ignored_range_whiteout_length (skip : IgnoreRange) (buf : List Nat)
    (offset : Nat) :
    (ignored_range_whiteout skip buf offset).length = buf.length := by
  simp only [ignored_range_whiteout]
  split_ifs <;> simp

/-- Claim C4, counterexample.  The ignore range is the half-open interval
[2, 6) and the chunk holds bytes [0, 4) of the file, so the range straddles
the end of the chunk; the claim demands that bytes 2 and 3 of the buffer be
zeroed, but ignored_range_whiteout returns the buffer unchanged (the early
return at ftreecmp.c:263 fires because the range's end lies beyond the end
of the chunk). -/
theorem C4_whiteout_straddle_counterexample :
    ignored_range_whiteout ⟨2, 4⟩ [1, 1, 1, 1] 0 = [1, 1, 1, 1]
      ∧ (2 : Nat) ≤ 0 + 2 ∧ (0 + 2 : Nat) < 2 + 4
      ∧ (ignored_range_whiteout ⟨2, 4⟩ [1, 1, 1, 1] 0).getD 2 0 ≠ 0 := by
  decide

/-- Claim C4, amended.  The whiteout step preserves the buffer length and
zeroes exactly the bytes whose absolute offsets lie within the ignore range
PROVIDED the range's end lies at or before the end of the chunk; otherwise
(the range straddles the chunk's end) the chunk is left entirely unchanged.
A range straddling only the chunk's start is masked as the original claim
says. -/
theorem C4_whiteout_amended (skip : IgnoreRange) (buf : List Nat)
    (offset i : Nat) (h : i < buf.length) :
    (ignored_range_whiteout skip buf offset).length = buf.length ∧
    (ignored_range_whiteout skip buf offset).getD i 0 =
      (if skip.offset + skip.size ≤ offset + buf.length
          ∧ skip.offset ≤ offset + i ∧ offset + i < skip.offset + skip.size
       then 0 else buf.getD i 0) := by
  refine ⟨ignored_range_whiteout_length skip buf offset, ?_⟩
  simp only [ignored_range_whiteout]
  by_cases h1 : skip.offset + skip.size ≤ offset
  · rw [if_pos h1, if_neg (by omega)]
  · rw [if_neg h1]
    by_cases h2 : skip.offset ≥ offset + buf.length
    · rw [if_pos h2, if_neg (by omega)]
    · rw [if_neg h2]
      by_cases h3 : buf.length < skip.offset + skip.size - offset
      · rw [if_pos h3, if_neg (by omega)]
      · rw [if_neg h3]
        have hl : i < (buf.mapIdx fun j b =>
            if skip.offset - offset ≤ j ∧ j < skip.offset + skip.size - offset
            then 0 else b).length := by
          simpa using h
        rw [List.getD_eq_getElem _ _ hl, List.getD_eq_getElem _ _ h]
        have hm := List.get_mapIdx buf
          (fun j b =>
            if skip.offset - offset ≤ j ∧ j < skip.offset + skip.size - offset
            then 0 else b) i h
        simp only [List.get_eq_getElem] at hm
        rw [hm]
        split_ifs <;> first | rfl | omega

/-- Claim C4, witness for the amended theorem: the range [1, 3) inside a
three-byte chunk at offset 0 zeroes byte 1. -/
theorem C4_whiteout_amended_witness :
    (1 : Nat) < ([5, 6, 7] : List Nat).length ∧
    ((ignored_range_whiteout ⟨1, 2⟩ [5, 6, 7] 0).length
        = ([5, 6, 7] : List Nat).length ∧
      (ignored_range_whiteout ⟨1, 2⟩ [5, 6, 7] 0).getD 1 0 =
        (if (1 + 2 : Nat) ≤ 0 + ([5, 6, 7] : List Nat).length
            ∧ (1 : Nat) ≤ 0 + 1 ∧ (0 + 1 : Nat) < 1 + 2
         then 0 else ([5, 6, 7] : List Nat).getD 1 0)) :=
  ⟨by decide, C4_whiteout_amended ⟨1, 2⟩ [5, 6, 7] 0 1 (by decide)⟩

/-! The build-id locator (claim C8). -/

/-- Claim C8, evaluation at the failing input.  With a section of size 4,
declared alignment 0 and payload a one-character name, a NUL and two
identifier bytes, elf_locate_build_id yields the range [0, 4) even though 0
is not a power of two: the check align and (align - 1) passes for 0, the
unsigned padding computation wraps the index to 0, and the resulting range
covers the whole section including the reference name (the NUL sits at
index 1, so the range is not past the name). -/
theorem C8_align_zero_eval :
    elf_locate_build_id 0 4 0 [97, 0, 9, 9] = some ⟨0, 4⟩
      ∧ (∀ i : Nat, (0 : Nat) ≠ 2 ^ i)
      ∧ nul_scan [97, 0, 9, 9] = 1 :=
  ⟨by decide, fun i => by
    have h : (0 : Nat) < 2 ^ i := Nat.pos_pow_of_pos i (by norm_num)
    exact h.ne, by decide⟩

/-! The metadata change flags (claim C6). -/

/-- Claim C6, counterexample.  A matched pair of character devices whose
modes differ only in the setuid bit (04755 versus 0755; the rwx bits 0755
are identical, as the last conjunct states) is reported with BOTH the
critical and the mode flag set, because the mode check at ftreecmp.c:368
masks with ALLPERMS = 07777, which includes the privileged bits; the claim
says the mode flag must be clear here. -/
theorem C6_mode_flag_counterexample :
    compare_files false [] [97] (.chr (some mSuid)) (.chr (some mPlain))
      = some ([Event.rpt ⟨FSTATE_CHANGED_CRIT ||| FSTATE_CHANGED_MODE
                  ||| FSTATE_CHANGED_REMOVED, [[97]], .chr⟩,
               Event.rpt ⟨FSTATE_CHANGED_CRIT ||| FSTATE_CHANGED_MODE
                  ||| FSTATE_CHANGED_ADDED, [[97]], .chr⟩], true)
      ∧ Nat.land 0o777 (Nat.xor mSuid.mode mPlain.mode) = 0
      ∧ Nat.land (FSTATE_CHANGED_CRIT ||| FSTATE_CHANGED_MODE
            ||| FSTATE_CHANGED_REMOVED) FSTATE_CHANGED_MODE ≠ 0 := by
  refine ⟨?_, by decide, by decide⟩
  simp only [compare_files, metadata_change_bits, report_changed_file,
    fstate_stat, nodeType, optEvents, mSuid, mPlain]
  decide

/-- Claim C6, amended.  The mode change flag is set if and only if any of
the twelve ALLPERMS bits (the rwx bits AND the setuid, setgid and sticky
bits) differ between the two stat buffers; consequently a pair differing
only in privileged bits gets the critical flag and ALSO the mode flag. -/
theorem C6_mode_flag_amended (old_stb new_stb : Meta) :
    (Nat.land (metadata_change_bits old_stb new_stb) FSTATE_CHANGED_MODE ≠ 0
      ↔ Nat.land ALLPERMS (Nat.xor old_stb.mode new_stb.mode) ≠ 0)
    ∧ (Nat.land (S_ISUID ||| S_ISGID ||| S_ISVTX)
          (Nat.xor old_stb.mode new_stb.mode) ≠ 0 →
        Nat.land (metadata_change_bits old_stb new_stb)
            FSTATE_CHANGED_CRIT ≠ 0
        ∧ Nat.land (metadata_change_bits old_stb new_stb)
            FSTATE_CHANGED_MODE ≠ 0) := by
  have key : Nat.land (S_ISUID ||| S_ISGID ||| S_ISVTX) ALLPERMS
      = S_ISUID ||| S_ISGID ||| S_ISVTX := by decide
  have hsub : Nat.land ALLPERMS (Nat.xor old_stb.mode new_stb.mode) = 0 →
      Nat.land (S_ISUID ||| S_ISGID ||| S_ISVTX)
        (Nat.xor old_stb.mode new_stb.mode) = 0 := by
    intro h0
    calc Nat.land (S_ISUID ||| S_ISGID ||| S_ISVTX)
          (Nat.xor old_stb.mode new_stb.mode)
        = Nat.land (Nat.land (S_ISUID ||| S_ISGID ||| S_ISVTX) ALLPERMS)
            (Nat.xor old_stb.mode new_stb.mode) := by rw [key]
      _ = Nat.land (S_ISUID ||| S_ISGID ||| S_ISVTX)
            (Nat.land ALLPERMS (Nat.xor old_stb.mode new_stb.mode)) :=
          Nat.land_assoc _ _ _
      _ = 0 := by rw [h0]; decide
  constructor
  · unfold metadata_change_bits
    by_cases h3 : Nat.land ALLPERMS (Nat.xor old_stb.mode new_stb.mode) ≠ 0
    · rw [if_pos h3, iff_true_intro h3]
      split_ifs <;> decide
    · rw [if_neg h3, iff_false_intro h3]
      split_ifs <;> decide
  · intro hx
    have h3 : Nat.land ALLPERMS (Nat.xor old_stb.mode new_stb.mode) ≠ 0 :=
      fun h0 => hx (hsub h0)
    unfold metadata_change_bits
    rw [if_pos hx, if_pos h3]
    split_ifs <;> decide

/-- Claim C6, witness of the amended theorem. -/
theorem C6_mode_flag_amended_witness :
    (Nat.land (metadata_change_bits mSuid mPlain) FSTATE_CHANGED_MODE ≠ 0
      ↔ Nat.land ALLPERMS (Nat.xor mSuid.mode mPlain.mode) ≠ 0)
    ∧ (Nat.land (S_ISUID ||| S_ISGID ||| S_ISVTX)
          (Nat.xor mSuid.mode mPlain.mode) ≠ 0 →
        Nat.land (metadata_change_bits mSuid mPlain) FSTATE_CHANGED_CRIT ≠ 0
        ∧ Nat.land (metadata_change_bits mSuid mPlain) FSTATE_CHANGED_MODE ≠ 0) :=
  C6_mode_flag_amended mSuid mPlain

/-! Read errors during regular-file comparison (claim C3). -/

set_option maxRecDepth 2000

/-- Claim C3, evaluation at the failing input.  A matched pair of regular
files of equal stat size, where reading the old file fails on the first
read(2), is classified exactly as a files-differ result: compare_files sets
the data change flag, emits the removed-old and added-new record pair and
returns status true.  The second conjunct runs the comparison on files that
genuinely differ in one byte and obtains byte-for-byte the same outcome, so
the call site cannot distinguish a read error from a content difference,
and the third conjunct shows compare_regular_files itself collapses the read
error to the same false it returns for a difference. -/
theorem C3_read_error_eval :
    compare_files false [] [97] (.reg (some mA) true none [.err])
        (.reg (some mA) true none [.ok [5]])
      = some ([Event.rpt ⟨FSTATE_CHANGED_DATA ||| FSTATE_CHANGED_REMOVED,
                [[97]], .reg⟩,
               Event.rpt ⟨FSTATE_CHANGED_DATA ||| FSTATE_CHANGED_ADDED,
                [[97]], .reg⟩], true)
    ∧ compare_files false [] [97] (.reg (some mA) true none [.ok [9]])
        (.reg (some mA) true none [.ok [5]])
      = some ([Event.rpt ⟨FSTATE_CHANGED_DATA ||| FSTATE_CHANGED_REMOVED,
                [[97]], .reg⟩,
               Event.rpt ⟨FSTATE_CHANGED_DATA ||| FSTATE_CHANGED_ADDED,
                [[97]], .reg⟩], true)
    ∧ compare_regular_files false mA mA true true none none [.err] [.ok [5]]
        = compare_regular_files false mA mA true true none none [.ok [9]] [.ok [5]] := by
  refine ⟨?_, ?_, ?_⟩ <;>
    (simp [compare_files, compare_regular_files, crf_loop, headRead,
       applySkip, metadata_change_bits, report_changed_file, fstate_stat,
       nodeType, optEvents, mA, FSTATE_CHANGED_CRIT, FSTATE_CHANGED_MODE,
       FSTATE_CHANGED_DATA, FSTATE_CHANGED_ADDED, FSTATE_CHANGED_REMOVED,
       S_ISUID, S_ISGID, S_ISVTX, ALLPERMS]
     try decide)

/-! Failure to enumerate a matched subdirectory (claim C7). -/

/-- Claim C7, evaluation at the failing input.  When the old side of a
matched directory pair cannot be enumerated, fstate_descend returns NULL and
compare_files passes the NULL snapshot straight into compare_directories,
which dereferences it (old->cursor, ftreecmp.c:103): the model crashes
(result none) instead of aborting the pair with error status.  The second
conjunct shows the crash takes down the whole merge-walk, so the following
sibling pair (name e) is never traversed either. -/
theorem C7_descend_failure_eval :
    compare_files false [] [100] (.dir (some mA) .fail)
        (.dir (some mA) (.ok .nil)) = none
    ∧ compare_directories false []
        (.cons [100] (.dir (some mA) .fail) (.cons [101] (.chr (some mA)) .nil))
        (.cons [100] (.dir (some mA) (.ok .nil))
          (.cons [101] (.chr (some mA)) .nil)) = none := by
  constructor
  · simp [compare_files, nodeType, fstate_stat, mA]
  · simp [compare_directories, compare_files, strcmpO, nodeType, fstate_stat, mA]

/-! Exit status and I/O errors during add/remove reporting (claim C2). -/

/-- Claim C2, evaluation at the failing input.  The old tree holds a single
entry (name a) whose lstat fails, and the new tree is empty, so the
merge-walk reports the entry as removed; report_recursively diagnoses the
stat failure and returns status false (second conjunct), but
compare_directories ignores that status (ftreecmp.c:119), so main exits
with status 0 (first conjunct) although an I/O error occurred during the
traversal. -/
theorem C2_exit_status_eval :
    main_exitval false (.ok (.cons [97] (.other none) .nil)) (.ok .nil) = some 0
    ∧ report_recursively FSTATE_CHANGED_REMOVED [] [97] (.other none)
        = some ([], false) := by
  constructor
  · simp [main_exitval, compare_directories, drain, report_recursively,
      fstate_stat]
  · simp [report_recursively, fstate_stat]

/-! Cross-kind matched pairs (claims C5 and C10). -/

theorem report_changed_file_reportable (how : Nat) (path : List Name)
    (name : Name) (n : FNode) (h : reportable n = true) :
    report_changed_file how path name n = some ⟨how, path ++ [name], nodeType n⟩ := by
  cases n with
  | reg st op bid chunks =>
    cases st <;> simp_all [reportable, report_changed_file, fstate_stat, nodeType]
  | dir st es =>
    cases st <;> simp_all [reportable, report_changed_file, fstate_stat, nodeType]
  | lnk st t =>
    cases st <;> cases t <;>
      simp_all [reportable, report_changed_file, fstate_stat, nodeType]
  | chr st =>
    cases st <;> simp_all [reportable, report_changed_file, fstate_stat, nodeType]
  | blk st =>
    cases st <;> simp_all [reportable, report_changed_file, fstate_stat, nodeType]
  | other st =>
    cases st <;> simp_all [reportable, report_changed_file, fstate_stat, nodeType]

/-- Shared evaluation of compare_files on a matched pair of differing kinds
(ftreecmp.c:353-356): two single records, removed-old then added-new, carrying
only the disposition bit, with status true and no recursion of any sort. -/
theorem compare_files_type_mismatch_eval (policy : Bool) (path : List Name)
    (name : Name) (old new : FNode) (hne : nodeType old ≠ nodeType new)
    (ho : reportable old = true) (hn : reportable new = true) :
    compare_files policy path name old new =
      some ([Event.rpt ⟨FSTATE_CHANGED_REMOVED, path ++ [name], nodeType old⟩,
             Event.rpt ⟨FSTATE_CHANGED_ADDED, path ++ [name], nodeType new⟩],
        true) := by
  rw [compare_files, if_pos hne,
    report_changed_file_reportable FSTATE_CHANGED_REMOVED path name old ho,
    report_changed_file_reportable FSTATE_CHANGED_ADDED path name new hn]
  rfl

/-- Claim C5, counterexample.  A regular file replaced by a directory with
one child (name y, byte 121): compare_files emits exactly the two records
for the pair itself and nothing for the child, so the new directory's
contents are NOT reported as an added subtree; the second conjunct checks
that no emitted event carries the child's path. -/
theorem C5_type_mismatch_counterexample :
    compare_files false [] [120] (.reg (some mA) true none [.ok [5]])
        (.dir (some mA) (.ok (.cons [121] (.chr (some mA)) .nil)))
      = some ([Event.rpt ⟨FSTATE_CHANGED_REMOVED, [[120]], .reg⟩,
               Event.rpt ⟨FSTATE_CHANGED_ADDED, [[120]], .dir⟩], true)
    ∧ ([Event.rpt (⟨FSTATE_CHANGED_REMOVED, [[120]], .reg⟩ : Report),
        Event.rpt ⟨FSTATE_CHANGED_ADDED, [[120]], .dir⟩].filter
          (fun e => decide (evPath e = [[120], [121]]))) = [] := by
  constructor
  · exact compare_files_type_mismatch_eval false [] [120] _ _ (by decide)
      (by decide) (by decide)
  · decide

/-- Claim C5, amended.  A name present on both sides with different kinds is
reported as an unconditional remove-old plus add-new pair of single records,
with no cross-kind diffing and no entry through the matched-pair branch; the
new entry's contents (when it is a directory) are neither traversed nor
reported at all, rather than being reported as a whole added subtree. -/
theorem C5_type_mismatch_amended (policy : Bool) (path : List Name)
    (name : Name) (old new : FNode) (hne : nodeType old ≠ nodeType new)
    (ho : reportable old = true) (hn : reportable new = true) :
    compare_files policy path name old new =
      some ([Event.rpt ⟨FSTATE_CHANGED_REMOVED, path ++ [name], nodeType old⟩,
             Event.rpt ⟨FSTATE_CHANGED_ADDED, path ++ [name], nodeType new⟩],
        true) :=
  compare_files_type_mismatch_eval policy path name old new hne ho hn

/-- Claim C5, witness of the amended theorem at a concrete pair: file
replaced by a directory holding one child; the result holds exactly the two
pair records, none for the child. -/
theorem C5_type_mismatch_amended_witness :
    compare_files true [] [120] (.reg (some mA) true none [.ok [5]])
        (.dir (some mA) (.ok (.cons [121] (.chr (some mA)) .nil)))
      = some ([Event.rpt ⟨FSTATE_CHANGED_REMOVED, [[120]], .reg⟩,
               Event.rpt ⟨FSTATE_CHANGED_ADDED, [[120]], .dir⟩], true) :=
  C5_type_mismatch_amended true [] [120] _ _ (by decide) (by decide) (by decide)

/-- Claim C10.  The two records of a cross-kind matched pair carry only the
disposition bit: neither the critical nor the mode nor the data flag is set,
and the kind change is visible only through the records' rendered kinds. -/
theorem C10_cross_kind_flags (policy : Bool) (path : List Name) (name : Name)
    (old new : FNode) (hne : nodeType old ≠ nodeType new)
    (ho : reportable old = true) (hn : reportable new = true) :
    ∃ r1 r2 : Report,
      compare_files policy path name old new
          = some ([Event.rpt r1, Event.rpt r2], true)
        ∧ r1.how = FSTATE_CHANGED_REMOVED ∧ r2.how = FSTATE_CHANGED_ADDED
        ∧ Nat.land r1.how (FSTATE_CHANGED_CRIT ||| FSTATE_CHANGED_MODE
            ||| FSTATE_CHANGED_DATA) = 0
        ∧ Nat.land r2.how (FSTATE_CHANGED_CRIT ||| FSTATE_CHANGED_MODE
            ||| FSTATE_CHANGED_DATA) = 0
        ∧ r1.ftype = nodeType old ∧ r2.ftype = nodeType new :=
  ⟨⟨FSTATE_CHANGED_REMOVED, path ++ [name], nodeType old⟩,
   ⟨FSTATE_CHANGED_ADDED, path ++ [name], nodeType new⟩,
   compare_files_type_mismatch_eval policy path name old new hne ho hn,
   rfl, rfl,
   by
     show Nat.land FSTATE_CHANGED_REMOVED (FSTATE_CHANGED_CRIT
       ||| FSTATE_CHANGED_MODE ||| FSTATE_CHANGED_DATA) = 0
     decide,
   by
     show Nat.land FSTATE_CHANGED_ADDED (FSTATE_CHANGED_CRIT
       ||| FSTATE_CHANGED_MODE ||| FSTATE_CHANGED_DATA) = 0
     decide,
   rfl, rfl⟩

/-- Claim C10, witness at a concrete pair: symlink replaced by a block
device. -/
theorem C10_cross_kind_flags_witness :
    ∃ r1 r2 : Report,
      compare_files false [] [122] (.lnk (some mA) (some [47]))
          (.blk (some mA)) = some ([Event.rpt r1, Event.rpt r2], true)
        ∧ r1.how = FSTATE_CHANGED_REMOVED ∧ r2.how = FSTATE_CHANGED_ADDED
        ∧ Nat.land r1.how (FSTATE_CHANGED_CRIT ||| FSTATE_CHANGED_MODE
            ||| FSTATE_CHANGED_DATA) = 0
        ∧ Nat.land r2.how (FSTATE_CHANGED_CRIT ||| FSTATE_CHANGED_MODE
            ||| FSTATE_CHANGED_DATA) = 0
        ∧ r1.ftype = nodeType (.lnk (some mA) (some [47]))
        ∧ r2.ftype = nodeType (.blk (some mA)) :=
  C10_cross_kind_flags false [] [122] _ _ (by decide) (by decide) (by decide)

/-! Identity of the comparison (claim C9). -/

theorem reportsOf_append (a b : List Event) :
    reportsOf (a ++ b) = reportsOf a ++ reportsOf b := by
  simp [reportsOf]

theorem reportsOf_cmp_cons (p : List Name) (evs : List Event) :
    reportsOf (Event.cmp p :: evs) = reportsOf evs := by
  simp [reportsOf, isRpt]

/-- The comparison loop run on one chunk stream against itself, with no
failed reads, always reports equality: each chunk equals itself also after
masking. -/
theorem crf_loop_self (skip : Option IgnoreRange) (offset : Nat)
    (cs : List RChunk)
    (h : (cs.all fun c => match c with | .ok _ => true | .err => false) = true) :
    crf_loop skip offset cs cs = true := by
  induction cs generalizing offset with
  | nil =>
    rw [crf_loop]
    simp [headRead]
  | cons c rest ih =>
    simp only [List.all_cons, Bool.and_eq_true] at h
    obtain ⟨hc, hrest⟩ := h
    cases c with
    | err => simp at hc
    | ok bytes =>
      rw [crf_loop]
      simp only [headRead]
      rw [if_neg (by simp)]
      by_cases hz : bytes.length = 0
      · rw [dif_pos hz]
      · rw [dif_neg hz]
        simpa using ih (offset + bytes.length) hrest

theorem compare_regular_files_self (policy : Bool) (m : Meta)
    (bid : Option IgnoreRange) (chunks : List RChunk)
    (h : (chunks.all fun c => match c with | .ok _ => true | .err => false) = true) :
    compare_regular_files policy m m true true bid bid chunks chunks = true := by
  rw [compare_regular_files.eq_def]
  rw [if_neg (show ¬ (m.size ≠ m.size) from by simp)]
  simp only [Bool.not_true, Bool.false_eq_true, if_false]
  exact crf_loop_self _ 0 chunks h

theorem natXor_eq_hXor (a b : Nat) : Nat.xor a b = a ^^^ b := rfl

theorem natLand_eq_hAnd (a b : Nat) : Nat.land a b = a &&& b := rfl

theorem metadata_change_bits_self (m : Meta) : metadata_change_bits m m = 0 := by
  simp [metadata_change_bits, natXor_eq_hXor, natLand_eq_hAnd, Nat.xor_self]

/-- Key induction for the identity property: comparing any fully readable
entry (or entry list) against itself yields no reports and status true. -/
theorem compare_self_aux : ∀ k : Nat,
    (∀ (policy : Bool) (path : List Name) (name : Name) (n : FNode),
      sizeOf n < k → okDeep n = true →
      ∃ evs, compare_files policy path name n n = some (evs, true)
        ∧ reportsOf evs = []) ∧
    (∀ (policy : Bool) (path : List Name) (l : EntryList),
      sizeOf l < k → okDeepL l = true →
      ∃ evs, compare_directories policy path l l = some (evs, true)
        ∧ reportsOf evs = []) := by
  intro k
  induction k using Nat.strong_induction_on with
  | _ k ih =>
    constructor
    · intro policy path name n hk hok
      cases n with
      | reg st op bid chunks =>
        simp only [okDeep] at hok
        simp only [Bool.and_eq_true] at hok
        obtain ⟨⟨h1, h2⟩, h3⟩ := hok
        cases st with
        | none => simp at h1
        | some m =>
          cases op with
          | false => simp at h2
          | true =>
            refine ⟨[], ?_, rfl⟩
            rw [compare_files, if_neg (fun hh => hh rfl)]
            simp [fstate_stat, compare_regular_files_self policy m bid chunks h3,
              metadata_change_bits_self]
      | dir st es =>
        cases es with
        | fail => cases st <;> simp [okDeep] at hok
        | ok l =>
          cases st with
          | none => simp [okDeep] at hok
          | some m =>
            simp only [okDeep, Bool.and_eq_true] at hok
            obtain ⟨-, h2⟩ := hok
            have hl : sizeOf l < sizeOf (FNode.dir (some m) (.ok l)) := by
              simp <;> omega
            obtain ⟨evs, hcd, hevs⟩ :=
              (ih (sizeOf (FNode.dir (some m) (.ok l))) hk).2 policy
                (path ++ [name]) l hl h2
            refine ⟨evs, ?_, hevs⟩
            rw [compare_files, if_neg (fun hh => hh rfl)]
            simp [fstate_stat, metadata_change_bits_self, hcd]
      | lnk st t =>
        simp only [okDeep] at hok
        simp only [Bool.and_eq_true] at hok
        obtain ⟨h1, h2⟩ := hok
        cases st with
        | none => simp at h1
        | some m =>
          cases t with
          | none => simp at h2
          | some tgt =>
            refine ⟨[], ?_, rfl⟩
            rw [compare_files, if_neg (fun hh => hh rfl)]
            simp [fstate_stat, metadata_change_bits_self]
      | chr st =>
        simp only [okDeep] at hok
        cases st with
        | none => simp at hok
        | some m =>
          refine ⟨[], ?_, rfl⟩
          rw [compare_files, if_neg (fun hh => hh rfl)]
          simp [fstate_stat, metadata_change_bits_self]
      | blk st =>
        simp only [okDeep] at hok
        cases st with
        | none => simp at hok
        | some m =>
          refine ⟨[], ?_, rfl⟩
          rw [compare_files, if_neg (fun hh => hh rfl)]
          simp [fstate_stat, metadata_change_bits_self]
      | other st =>
        simp only [okDeep] at hok
        cases st with
        | none => simp at hok
        | some m =>
          refine ⟨[], ?_, rfl⟩
          rw [compare_files, if_neg (fun hh => hh rfl)]
          simp [fstate_stat, metadata_change_bits_self]
    · intro policy path l hk hok
      cases l with
      | nil =>
        refine ⟨[], ?_, rfl⟩
        rw [compare_directories]
        simp [drain]
      | cons nm nd rest =>
        simp only [okDeepL] at hok
        simp only [Bool.and_eq_true] at hok
        obtain ⟨h1, h2⟩ := hok
        have hnd : sizeOf nd < sizeOf (EntryList.cons nm nd rest) := by
          simp <;> omega
        have hrest : sizeOf rest < sizeOf (EntryList.cons nm nd rest) := by
          simp <;> omega
        obtain ⟨evs1, hcf, hevs1⟩ :=
          (ih (sizeOf (EntryList.cons nm nd rest)) hk).1 policy path nm nd hnd h1
        obtain ⟨evs2, hcd, hevs2⟩ :=
          (ih (sizeOf (EntryList.cons nm nd rest)) hk).2 policy path rest hrest h2
        refine ⟨Event.cmp (path ++ [nm]) :: (evs1 ++ evs2), ?_, ?_⟩
        · rw [compare_directories.eq_def]
          simp [strcmpO_self, hcf, hcd]
        · rw [reportsOf_cmp_cons, reportsOf_append, hevs1, hevs2]
          rfl

/-- Claim C9.  Comparing a fully readable directory tree against itself
emits zero change records (only cmp markers of the matched pairs), the
merge-walk returns status true, and the modelled main exits with status 0. -/
theorem C9_identity_self_compare (policy : Bool) (l : EntryList)
    (h : okDeepL l = true) :
    ∃ evs, compare_directories policy [] l l = some (evs, true)
      ∧ reportsOf evs = []
      ∧ main_exitval policy (.ok l) (.ok l) = some 0 := by
  obtain ⟨evs, hcd, hevs⟩ :=
    (compare_self_aux (sizeOf l + 1)).2 policy [] l (by omega) h
  exact ⟨evs, hcd, hevs, by simp [main_exitval, hcd]⟩

/-- Claim C9, witness: a tree holding a regular file (name byte 97) and an
empty subdirectory (name byte 98), compared against itself. -/
theorem C9_identity_self_compare_witness :
    okDeepL (.cons [97] (.reg (some mA) true none [.ok [5]])
      (.cons [98] (.dir (some mA) (.ok .nil)) .nil)) = true
    ∧ ∃ evs, compare_directories true []
        (.cons [97] (.reg (some mA) true none [.ok [5]])
          (.cons [98] (.dir (some mA) (.ok .nil)) .nil))
        (.cons [97] (.reg (some mA) true none [.ok [5]])
          (.cons [98] (.dir (some mA) (.ok .nil)) .nil)) = some (evs, true)
      ∧ reportsOf evs = []
      ∧ main_exitval true
          (.ok (.cons [97] (.reg (some mA) true none [.ok [5]])
            (.cons [98] (.dir (some mA) (.ok .nil)) .nil)))
          (.ok (.cons [97] (.reg (some mA) true none [.ok [5]])
            (.cons [98] (.dir (some mA) (.ok .nil)) .nil))) = some 0 :=
  ⟨by simp [okDeepL, okDeep, fstate_stat],
   C9_identity_self_compare true _ (by simp [okDeepL, okDeep, fstate_stat])⟩

/-! Helper lemmas about sorted snapshots, lookups and event filtering, used
for the merge-walk theorem (claim C1). -/

theorem sortedB_inv : ∀ (nm : Name) (nd : FNode) (rest : EntryList),
    sortedB (.cons nm nd rest) = true →
    sortedB rest = true ∧ ∀ m ∈ namesOf rest, strcmpO nm m = .lt
  | nm, nd, .nil, _ => ⟨rfl, by simp [namesOf]⟩
  | nm, nd, .cons nm2 nd2 rest2, h => by
    rw [sortedB] at h
    simp only [Bool.and_eq_true] at h
    obtain ⟨hlt0, hrest⟩ := h
    have hlt : strcmpO nm nm2 = .lt := by
      cases hx : strcmpO nm nm2
      · rfl
      · rw [hx] at hlt0; exact absurd hlt0 (by decide)
      · rw [hx] at hlt0; exact absurd hlt0 (by decide)
    obtain ⟨hs2, hall2⟩ := sortedB_inv nm2 nd2 rest2 hrest
    refine ⟨hrest, ?_⟩
    intro m hm
    rw [namesOf] at hm
    rcases List.mem_cons.mp hm with hm | hm
    · subst hm; exact hlt
    · exact strcmpO_lt_trans hlt (hall2 m hm)
termination_by nm nd rest => sizeOf rest

theorem lookupE_mem : ∀ {l : EntryList} {n : Name} {nd : FNode},
    lookupE l n = some nd → n ∈ namesOf l
  | .nil, n, nd, h => by simp [lookupE] at h
  | .cons nm node rest, n, nd, h => by
    rw [lookupE] at h
    rw [namesOf]
    by_cases he : n = nm
    · simp [he]
    · rw [if_neg he] at h
      exact List.mem_cons_of_mem _ (lookupE_mem h)
termination_by l => sizeOf l

theorem lookupE_none_of_not_mem {l : EntryList} {n : Name}
    (h : n ∉ namesOf l) : lookupE l n = none := by
  cases hl : lookupE l n with
  | none => rfl
  | some nd => exact absurd (lookupE_mem hl) h

theorem filterHead_append (n : Name) (a b : List Event) :
    filterHead n (a ++ b) = filterHead n a ++ filterHead n b := by
  simp [filterHead]

theorem filterHead_all_match (n : Name) (evs : List Event)
    (h : ∀ e ∈ evs, ∃ rest, evPath e = n :: rest) :
    filterHead n evs = evs := by
  induction evs with
  | nil => rfl
  | cons e rest ih =>
    obtain ⟨r, hr⟩ := h e (List.mem_cons_self e rest)
    rw [filterHead, List.filter_cons]
    rw [if_pos (by simp [hr])]
    rw [filterHead] at ih
    rw [ih (fun x hx => h x (List.mem_cons_of_mem e hx))]

theorem filterHead_none (n : Name) (evs : List Event)
    (h : ∀ e ∈ evs, (evPath e).head? ≠ some n) :
    filterHead n evs = [] := by
  induction evs with
  | nil => rfl
  | cons e rest ih =>
    rw [filterHead, List.filter_cons]
    rw [if_neg (by simpa using h e (List.mem_cons_self e rest))]
    rw [filterHead] at ih
    exact ih (fun x hx => h x (List.mem_cons_of_mem e hx))

theorem chain'_of_all_eq {R : Name → Name → Prop} {l : List Name} {a : Name}
    (h : ∀ x ∈ l, x = a) (hra : R a a) : List.Chain' R l := by
  induction l with
  | nil => exact List.chain'_nil
  | cons x rest ih =>
    cases rest with
    | nil => simp
    | cons y rest2 =>
      rw [List.chain'_cons]
      constructor
      · have hx := h x (by simp)
        have hy := h y (by simp)
        rw [hx, hy]; exact hra
      · exact ih (fun z hz => h z (List.mem_cons_of_mem x hz))

theorem okDeep_reportable (n : FNode) (h : okDeep n = true) :
    reportable n = true := by
  cases n with
  | reg st op bid chunks =>
    simp only [okDeep, Bool.and_eq_true] at h
    simp [reportable, fstate_stat, h.1.1]
  | dir st es =>
    cases es with
    | fail => cases st <;> simp [okDeep] at h
    | ok l =>
      simp only [okDeep, Bool.and_eq_true] at h
      simp [reportable, fstate_stat, h.1]
  | lnk st t =>
    simp only [okDeep, Bool.and_eq_true] at h
    simp [reportable, h.1, h.2]
  | chr st => simp only [okDeep] at h; simp [reportable, fstate_stat, h]
  | blk st => simp only [okDeep] at h; simp [reportable, fstate_stat, h]
  | other st => simp only [okDeep] at h; simp [reportable, fstate_stat, h]

theorem pair_records_mem (how : Nat) (path : List Name) (name : Name)
    (t1 t2 : FType) :
    (∀ e ∈ pair_records how path name t1 t2, ∃ rest, evPath e = path ++ name :: rest)
    ∧ (∀ p, Event.cmp p ∉ pair_records how path name t1 t2) := by
  constructor
  · intro e he
    rw [pair_records] at he
    split_ifs at he with hz
    · rcases List.mem_cons.mp he with he | he
      · subst he; exact ⟨[], by simp [evPath]⟩
      · rcases List.mem_cons.mp he with he | he
        · subst he; exact ⟨[], by simp [evPath]⟩
        · simp at he
    · simp at he
  · intro p hp
    rw [pair_records] at hp
    split_ifs at hp with hz
    · rcases List.mem_cons.mp hp with hp | hp
      · exact absurd hp (by simp)
      · rcases List.mem_cons.mp hp with hp | hp
        · exact absurd hp (by simp)
        · simp at hp
    · simp at hp

/-! Closed forms of compare_files on matched same-kind pairs. -/

theorem compare_files_reg_eval (policy : Bool) (path : List Name) (name : Name)
    (m1 m2 : Meta) (op1 op2 : Bool) (bid1 bid2 : Option IgnoreRange)
    (ch1 ch2 : List RChunk) :
    compare_files policy path name (.reg (some m1) op1 bid1 ch1)
        (.reg (some m2) op2 bid2 ch2)
      = some (pair_records (metadata_change_bits m1 m2 |||
          (if compare_regular_files policy m1 m2 op1 op2 bid1 bid2 ch1 ch2
           then 0 else FSTATE_CHANGED_DATA)) path name .reg .reg, true) := by
  rw [compare_files, if_neg (fun hh => hh rfl)]
  simp only [fstate_stat, pair_records, optEvents, report_changed_file, nodeType]
  by_cases hc : compare_regular_files policy m1 m2 op1 op2 bid1 bid2 ch1 ch2 <;>
    simp [hc] <;> split_ifs <;> simp_all

theorem compare_files_lnk_eval (policy : Bool) (path : List Name) (name : Name)
    (m1 m2 : Meta) (t1 t2 : Name) :
    compare_files policy path name (.lnk (some m1) (some t1))
        (.lnk (some m2) (some t2))
      = some (pair_records (metadata_change_bits m1 m2 |||
          (if t1 ≠ t2 then FSTATE_CHANGED_DATA else 0)) path name .lnk .lnk,
          true) := by
  rw [compare_files, if_neg (fun hh => hh rfl)]
  simp only [fstate_stat, pair_records, optEvents, report_changed_file, nodeType]
  by_cases hc : t1 = t2 <;> simp [hc] <;> split_ifs <;> simp_all

theorem compare_files_chr_eval (policy : Bool) (path : List Name) (name : Name)
    (m1 m2 : Meta) :
    compare_files policy path name (.chr (some m1)) (.chr (some m2))
      = some (pair_records (metadata_change_bits m1 m2 |||
          (if m1.rdev ≠ m2.rdev then FSTATE_CHANGED_DATA else 0)) path name
          .chr .chr, true) := by
  rw [compare_files, if_neg (fun hh => hh rfl)]
  simp only [fstate_stat, pair_records, optEvents, report_changed_file, nodeType]
  by_cases hc : m1.rdev = m2.rdev <;> simp [hc] <;> split_ifs <;> simp_all

theorem compare_files_blk_eval (policy : Bool) (path : List Name) (name : Name)
    (m1 m2 : Meta) :
    compare_files policy path name (.blk (some m1)) (.blk (some m2))
      = some (pair_records (metadata_change_bits m1 m2 |||
          (if m1.rdev ≠ m2.rdev then FSTATE_CHANGED_DATA else 0)) path name
          .blk .blk, true) := by
  rw [compare_files, if_neg (fun hh => hh rfl)]
  simp only [fstate_stat, pair_records, optEvents, report_changed_file, nodeType]
  by_cases hc : m1.rdev = m2.rdev <;> simp [hc] <;> split_ifs <;> simp_all

theorem compare_files_other_eval (policy : Bool) (path : List Name)
    (name : Name) (m1 m2 : Meta) :
    compare_files policy path name (.other (some m1)) (.other (some m2))
      = some (pair_records (metadata_change_bits m1 m2) path name
          .other .other, true) := by
  rw [compare_files, if_neg (fun hh => hh rfl)]
  simp only [fstate_stat, pair_records, optEvents, report_changed_file, nodeType]
  split_ifs <;> simp_all

theorem compare_files_dir_eval (policy : Bool) (path : List Name) (name : Name)
    (m1 m2 : Meta) (l1 l2 : EntryList) (evs : List Event) (st : Bool)
    (hcd : compare_directories policy (path ++ [name]) l1 l2 = some (evs, st)) :
    compare_files policy path name (.dir (some m1) (.ok l1))
        (.dir (some m2) (.ok l2))
      = some (pair_records (metadata_change_bits m1 m2) path name .dir .dir
          ++ evs, st) := by
  rw [compare_files, if_neg (fun hh => hh rfl)]
  simp only [fstate_stat, pair_records, optEvents, report_changed_file,
    nodeType, hcd]
  split_ifs <;> simp_all

/-! Recursive reporting of whole subtrees (used for claim C1). -/

mutual
/-- On a fully readable subtree, report_recursively reports exactly the
flatten of the subtree and returns status true. -/
theorem report_recursively_ok : ∀ (how : Nat) (path : List Name) (name : Name)
    (n : FNode), okDeep n = true →
    report_recursively how path name n = some (flatten how path name n, true)
  | how, path, name, .reg st op bid chunks, hok => by
    simp only [okDeep, Bool.and_eq_true] at hok
    obtain ⟨⟨h1, h2⟩, h3⟩ := hok
    cases st with
    | none => simp at h1
    | some m =>
      rw [report_recursively]
      simp [report_changed_file, fstate_stat, nodeType, flatten]
  | how, path, name, .dir st es, hok => by
    cases es with
    | fail => cases st <;> simp [okDeep] at hok
    | ok l =>
      cases st with
      | none => simp [okDeep] at hok
      | some m =>
        simp only [okDeep, Bool.and_eq_true] at hok
        have hlist := report_list_ok how (path ++ [name]) l hok.2
        rw [report_recursively]
        simp [report_changed_file, fstate_stat, nodeType, flatten, hlist]
  | how, path, name, .lnk st t, hok => by
    simp only [okDeep, Bool.and_eq_true] at hok
    obtain ⟨h1, h2⟩ := hok
    cases st with
    | none => simp at h1
    | some m =>
      cases t with
      | none => simp at h2
      | some tgt =>
        rw [report_recursively]
        simp [report_changed_file, fstate_stat, nodeType, flatten]
  | how, path, name, .chr st, hok => by
    simp only [okDeep] at hok
    cases st with
    | none => simp at hok
    | some m =>
      rw [report_recursively]
      simp [report_changed_file, fstate_stat, nodeType, flatten]
  | how, path, name, .blk st, hok => by
    simp only [okDeep] at hok
    cases st with
    | none => simp at hok
    | some m =>
      rw [report_recursively]
      simp [report_changed_file, fstate_stat, nodeType, flatten]
  | how, path, name, .other st, hok => by
    simp only [okDeep] at hok
    cases st with
    | none => simp at hok
    | some m =>
      rw [report_recursively]
      simp [report_changed_file, fstate_stat, nodeType, flatten]
termination_by how path name n => sizeOf n

/-- List form: the reporting loop over a fully readable entry list yields
the concatenated flattens and status true. -/
theorem report_list_ok : ∀ (how : Nat) (path : List Name) (l : EntryList),
    okDeepL l = true →
    report_list how path l = some (flattenL how path l, true)
  | how, path, .nil, _ => by
    rw [report_list]
    simp [flattenL]
  | how, path, .cons nm nd rest, hok => by
    simp only [okDeepL, Bool.and_eq_true] at hok
    have h1 := report_recursively_ok how path nm nd hok.1
    have h2 := report_list_ok how path rest hok.2
    rw [report_list]
    simp [h1, h2, flattenL]
termination_by how path l => sizeOf l
end

mutual
/-- Shape of a flattened subtree report block: its paths are exactly the
subtree paths (one report per node of the subtree, in depth-first order),
every event is a report carrying the disposition how, and every path starts
with the block's top-level name appended to the base path. -/
theorem flatten_spec : ∀ (how : Nat) (path : List Name) (name : Name)
    (n : FNode),
    ((flatten how path name n).map evPath = subtreePaths path name n)
    ∧ (∀ e ∈ flatten how path name n, ∃ p ft, e = Event.rpt ⟨how, p, ft⟩)
    ∧ (∀ e ∈ flatten how path name n, ∃ rest, evPath e = path ++ name :: rest)
  | how, path, name, .dir st (.ok l) => by
    have ih := flattenL_spec how (path ++ [name]) l
    rw [flatten, subtreePaths]
    refine ⟨?_, ?_, ?_⟩
    · simp [evPath, ih.1]
    · intro e he
      rcases List.mem_cons.mp he with he | he
      · exact ⟨path ++ [name], .dir, he⟩
      · exact ih.2.1 e he
    · intro e he
      rcases List.mem_cons.mp he with he | he
      · subst he; exact ⟨[], by simp [evPath]⟩
      · obtain ⟨m, rest, hm, hp⟩ := ih.2.2 e he
        exact ⟨m :: rest, by simp [hp]⟩
  | how, path, name, .dir st .fail => by
    rw [flatten, subtreePaths]
    refine ⟨by simp [evPath], ?_, ?_⟩
    · intro e he
      rcases List.mem_cons.mp he with he | he
      · exact ⟨path ++ [name], .dir, he⟩
      · simp at he
    · intro e he
      rcases List.mem_cons.mp he with he | he
      · subst he; exact ⟨[], by simp [evPath]⟩
      · simp at he
  | how, path, name, .reg st op bid ch => by
    rw [flatten, subtreePaths]
    exact ⟨by simp [evPath], fun e he => by
        rcases List.mem_cons.mp he with he | he
        · exact ⟨path ++ [name], .reg, he⟩
        · simp at he,
      fun e he => by
        rcases List.mem_cons.mp he with he | he
        · subst he; exact ⟨[], by simp [evPath]⟩
        · simp at he⟩
  | how, path, name, .lnk st t => by
    rw [flatten, subtreePaths]
    exact ⟨by simp [evPath], fun e he => by
        rcases List.mem_cons.mp he with he | he
        · exact ⟨path ++ [name], .lnk, he⟩
        · simp at he,
      fun e he => by
        rcases List.mem_cons.mp he with he | he
        · subst he; exact ⟨[], by simp [evPath]⟩
        · simp at he⟩
  | how, path, name, .chr st => by
    rw [flatten, subtreePaths]
    exact ⟨by simp [evPath], fun e he => by
        rcases List.mem_cons.mp he with he | he
        · exact ⟨path ++ [name], .chr, he⟩
        · simp at he,
      fun e he => by
        rcases List.mem_cons.mp he with he | he
        · subst he; exact ⟨[], by simp [evPath]⟩
        · simp at he⟩
  | how, path, name, .blk st => by
    rw [flatten, subtreePaths]
    exact ⟨by simp [evPath], fun e he => by
        rcases List.mem_cons.mp he with he | he
        · exact ⟨path ++ [name], .blk, he⟩
        · simp at he,
      fun e he => by
        rcases List.mem_cons.mp he with he | he
        · subst he; exact ⟨[], by simp [evPath]⟩
        · simp at he⟩
  | how, path, name, .other st => by
    rw [flatten, subtreePaths]
    exact ⟨by simp [evPath], fun e he => by
        rcases List.mem_cons.mp he with he | he
        · exact ⟨path ++ [name], .other, he⟩
        · simp at he,
      fun e he => by
        rcases List.mem_cons.mp he with he | he
        · subst he; exact ⟨[], by simp [evPath]⟩
        · simp at he⟩
termination_by how path name n => sizeOf n

/-- List form of flatten_spec over the entries of one directory. -/
theorem flattenL_spec : ∀ (how : Nat) (path : List Name) (l : EntryList),
    ((flattenL how path l).map evPath = subtreePathsL path l)
    ∧ (∀ e ∈ flattenL how path l, ∃ p ft, e = Event.rpt ⟨how, p, ft⟩)
    ∧ (∀ e ∈ flattenL how path l,
        ∃ m rest, m ∈ namesOf l ∧ evPath e = path ++ m :: rest)
  | how, path, .nil => by
    rw [flattenL, subtreePathsL]
    exact ⟨rfl, by simp, by simp⟩
  | how, path, .cons nm nd rest => by
    have ihn := flatten_spec how path nm nd
    have ihr := flattenL_spec how path rest
    rw [flattenL, subtreePathsL]
    refine ⟨by simp [ihn.1, ihr.1], ?_, ?_⟩
    · intro e he
      rcases List.mem_append.mp he with he | he
      · exact ihn.2.1 e he
      · exact ihr.2.1 e he
    · intro e he
      rcases List.mem_append.mp he with he | he
      · obtain ⟨r, hr⟩ := ihn.2.2 e he
        exact ⟨nm, r, by simp [namesOf], hr⟩
      · obtain ⟨m, r, hm, hr⟩ := ihr.2.2 e he
        exact ⟨m, r, by simp [namesOf, hm], hr⟩
termination_by how path l => sizeOf l
end

/-- The drain loop on a fully readable entry list reports the concatenated
flattens (the statuses of the recursive reports are ignored). -/
theorem drain_ok : ∀ (how : Nat) (path : List Name) (l : EntryList),
    okDeepL l = true → drain how path l = some (flattenL how path l)
  | how, path, .nil, _ => by rw [drain]; simp [flattenL]
  | how, path, .cons nm nd rest, hok => by
    simp only [okDeepL, Bool.and_eq_true] at hok
    rw [drain]
    simp [report_recursively_ok how path nm nd hok.1,
      drain_ok how path rest hok.2, flattenL]
termination_by how path l => sizeOf l

/-- No cmp marker occurs in a flattened add/remove block. -/
theorem flattenL_no_cmp (how : Nat) (path : List Name) (l : EntryList)
    (p : List Name) (hp : Event.cmp p ∈ flattenL how path l) : False := by
  obtain ⟨q, ft, hq⟩ := (flattenL_spec how path l).2.1 _ hp
  exact absurd hq (by simp)

/-- No cmp marker occurs in a flattened subtree block. -/
theorem flatten_no_cmp (how : Nat) (path : List Name) (name : Name)
    (n : FNode) (p : List Name) (hp : Event.cmp p ∈ flatten how path name n) :
    False := by
  obtain ⟨q, ft, hq⟩ := (flatten_spec how path name n).2.1 _ hp
  exact absurd hq (by simp)

/-- Ok-shape of the matched-pair comparison and of the merge-walk on fully
readable inputs: the result is some with status true, every event's path
extends the base path by a name of the level, and every cmp marker's path is
strictly longer than the base (for compare_files, strictly longer than the
pair's own path). -/
theorem compare_ok_aux : ∀ k : Nat,
    (∀ (policy : Bool) (path : List Name) (name : Name) (old new : FNode),
      sizeOf old + sizeOf new < k → okDeep old = true → okDeep new = true →
      ∃ evs, compare_files policy path name old new = some (evs, true)
        ∧ (∀ e ∈ evs, ∃ rest, evPath e = path ++ name :: rest)
        ∧ (∀ p, Event.cmp p ∈ evs → path.length + 1 < p.length))
    ∧ (∀ (policy : Bool) (path : List Name) (olds news : EntryList),
      sizeOf olds + sizeOf news < k →
      okDeepL olds = true → okDeepL news = true →
      ∃ evs, compare_directories policy path olds news = some (evs, true)
        ∧ (∀ e ∈ evs, ∃ m rest, (m ∈ namesOf olds ∨ m ∈ namesOf news)
            ∧ evPath e = path ++ m :: rest)
        ∧ (∀ p, Event.cmp p ∈ evs → path.length < p.length)) := by
  intro k
  induction k using Nat.strong_induction_on with
  | _ k ih =>
    constructor
    · intro policy path name old new hk ho hn
      by_cases hne : nodeType old ≠ nodeType new
      · refine ⟨_, compare_files_type_mismatch_eval policy path name old new
          hne (okDeep_reportable old ho) (okDeep_reportable new hn), ?_, ?_⟩
        · intro e he
          rcases List.mem_cons.mp he with he | he
          · subst he; exact ⟨[], by simp [evPath]⟩
          · rcases List.mem_cons.mp he with he | he
            · subst he; exact ⟨[], by simp [evPath]⟩
            · simp at he
        · intro p hp
          rcases List.mem_cons.mp hp with hp | hp
          · exact absurd hp (by simp)
          · rcases List.mem_cons.mp hp with hp | hp
            · exact absurd hp (by simp)
            · simp at hp
      · have heq := not_not.mp hne
        cases old with
        | reg ost oop obid och =>
          cases new with
          | reg nst nop nbid nch =>
            simp only [okDeep, Bool.and_eq_true] at ho hn
            obtain ⟨⟨ho1, _⟩, _⟩ := ho
            obtain ⟨⟨hn1, _⟩, _⟩ := hn
            cases ost with
            | none => simp at ho1
            | some m1 =>
              cases nst with
              | none => simp at hn1
              | some m2 =>
                refine ⟨_, compare_files_reg_eval policy path name m1 m2
                  oop nop obid nbid och nch, (pair_records_mem _ _ _ _ _).1,
                  fun p hp => absurd hp ((pair_records_mem _ _ _ _ _).2 p)⟩
          | dir _ _ => simp [nodeType] at heq
          | lnk _ _ => simp [nodeType] at heq
          | chr _ => simp [nodeType] at heq
          | blk _ => simp [nodeType] at heq
          | other _ => simp [nodeType] at heq
        | dir ost oes =>
          cases new with
          | reg _ _ _ _ => simp [nodeType] at heq
          | dir nst nes =>
            cases oes with
            | fail => cases ost <;> simp [okDeep] at ho
            | ok l1 =>
              cases nes with
              | fail => cases nst <;> simp [okDeep] at hn
              | ok l2 =>
                cases ost with
                | none => simp [okDeep] at ho
                | some m1 =>
                  cases nst with
                  | none => simp [okDeep] at hn
                  | some m2 =>
                    simp only [okDeep, Bool.and_eq_true] at ho hn
                    have hsz : sizeOf l1 + sizeOf l2 <
                        sizeOf (FNode.dir (some m1) (.ok l1))
                          + sizeOf (FNode.dir (some m2) (.ok l2)) := by
                      simp <;> omega
                    obtain ⟨evs2, hcd, hpre, hcmp⟩ :=
                      (ih _ hk).2 policy (path ++ [name]) l1 l2 hsz ho.2 hn.2
                    refine ⟨_, compare_files_dir_eval policy path name m1 m2
                      l1 l2 evs2 true hcd, ?_, ?_⟩
                    · intro e he
                      rcases List.mem_append.mp he with he | he
                      · exact (pair_records_mem _ _ _ _ _).1 e he
                      · obtain ⟨m, rest, _, hr⟩ := hpre e he
                        exact ⟨m :: rest, by simp [hr]⟩
                    · intro p hp
                      rcases List.mem_append.mp hp with hp | hp
                      · exact absurd hp ((pair_records_mem _ _ _ _ _).2 p)
                      · have := hcmp p hp
                        simp only [List.length_append, List.length_cons,
                          List.length_nil] at this
                        omega
          | lnk _ _ => simp [nodeType] at heq
          | chr _ => simp [nodeType] at heq
          | blk _ => simp [nodeType] at heq
          | other _ => simp [nodeType] at heq
        | lnk ost ot =>
          cases new with
          | reg _ _ _ _ => simp [nodeType] at heq
          | dir _ _ => simp [nodeType] at heq
          | lnk nst nt =>
            simp only [okDeep, Bool.and_eq_true] at ho hn
            obtain ⟨ho1, ho2⟩ := ho
            obtain ⟨hn1, hn2⟩ := hn
            cases ost with
            | none => simp at ho1
            | some m1 =>
              cases nst with
              | none => simp at hn1
              | some m2 =>
                cases ot with
                | none => simp at ho2
                | some t1 =>
                  cases nt with
                  | none => simp at hn2
                  | some t2 =>
                    refine ⟨_, compare_files_lnk_eval policy path name m1 m2
                      t1 t2, (pair_records_mem _ _ _ _ _).1,
                      fun p hp => absurd hp ((pair_records_mem _ _ _ _ _).2 p)⟩
          | chr _ => simp [nodeType] at heq
          | blk _ => simp [nodeType] at heq
          | other _ => simp [nodeType] at heq
        | chr ost =>
          cases new with
          | reg _ _ _ _ => simp [nodeType] at heq
          | dir _ _ => simp [nodeType] at heq
          | lnk _ _ => simp [nodeType] at heq
          | chr nst =>
            simp only [okDeep] at ho hn
            cases ost with
            | none => simp at ho
            | some m1 =>
              cases nst with
              | none => simp at hn
              | some m2 =>
                refine ⟨_, compare_files_chr_eval policy path name m1 m2,
                  (pair_records_mem _ _ _ _ _).1,
                  fun p hp => absurd hp ((pair_records_mem _ _ _ _ _).2 p)⟩
          | blk _ => simp [nodeType] at heq
          | other _ => simp [nodeType] at heq
        | blk ost =>
          cases new with
          | reg _ _ _ _ => simp [nodeType] at heq
          | dir _ _ => simp [nodeType] at heq
          | lnk _ _ => simp [nodeType] at heq
          | chr _ => simp [nodeType] at heq
          | blk nst =>
            simp only [okDeep] at ho hn
            cases ost with
            | none => simp at ho
            | some m1 =>
              cases nst with
              | none => simp at hn
              | some m2 =>
                refine ⟨_, compare_files_blk_eval policy path name m1 m2,
                  (pair_records_mem _ _ _ _ _).1,
                  fun p hp => absurd hp ((pair_records_mem _ _ _ _ _).2 p)⟩
          | other _ => simp [nodeType] at heq
        | other ost =>
          cases new with
          | reg _ _ _ _ => simp [nodeType] at heq
          | dir _ _ => simp [nodeType] at heq
          | lnk _ _ => simp [nodeType] at heq
          | chr _ => simp [nodeType] at heq
          | blk _ => simp [nodeType] at heq
          | other nst =>
            simp only [okDeep] at ho hn
            cases ost with
            | none => simp at ho
            | some m1 =>
              cases nst with
              | none => simp at hn
              | some m2 =>
                refine ⟨_, compare_files_other_eval policy path name m1 m2,
                  (pair_records_mem _ _ _ _ _).1,
                  fun p hp => absurd hp ((pair_records_mem _ _ _ _ _).2 p)⟩
    · intro policy path olds news hk ho hn
      cases olds with
      | nil =>
        refine ⟨flattenL FSTATE_CHANGED_ADDED path news, ?_, ?_, ?_⟩
        · rw [compare_directories.eq_def]
          cases news with
          | nil => simp [drain_ok FSTATE_CHANGED_ADDED path .nil hn]
          | cons a b c => simp [drain_ok FSTATE_CHANGED_ADDED path _ hn]
        · intro e he
          obtain ⟨m, rest, hm, hr⟩ := (flattenL_spec _ path news).2.2 e he
          exact ⟨m, rest, Or.inr hm, hr⟩
        · intro p hp
          exact absurd hp (fun hp => flattenL_no_cmp _ _ _ _ hp)
      | cons old_name old_node orest =>
        cases news with
        | nil =>
          refine ⟨flattenL FSTATE_CHANGED_REMOVED path
            (.cons old_name old_node orest), ?_, ?_, ?_⟩
          · rw [compare_directories.eq_def]
            simp [drain_ok FSTATE_CHANGED_REMOVED path _ ho]
          · intro e he
            obtain ⟨m, rest, hm, hr⟩ :=
              (flattenL_spec _ path (.cons old_name old_node orest)).2.2 e he
            exact ⟨m, rest, Or.inl hm, hr⟩
          · intro p hp
            exact absurd hp (fun hp => flattenL_no_cmp _ _ _ _ hp)
        | cons new_name new_node nrest =>
          simp only [okDeepL, Bool.and_eq_true] at ho hn
          obtain ⟨ho1, ho2⟩ := ho
          obtain ⟨hn1, hn2⟩ := hn
          cases hcmp : strcmpO old_name new_name with
          | lt =>
            have hsz : sizeOf orest + sizeOf (EntryList.cons new_name new_node nrest) <
                sizeOf (EntryList.cons old_name old_node orest)
                  + sizeOf (EntryList.cons new_name new_node nrest) := by
              simp <;> omega
            obtain ⟨evs2, hcd, hpre, hcmp2⟩ := (ih _ hk).2 policy path orest
              (.cons new_name new_node nrest) hsz ho2 (by
                simp only [okDeepL, Bool.and_eq_true]; exact ⟨hn1, hn2⟩)
            refine ⟨flatten FSTATE_CHANGED_REMOVED path old_name old_node
              ++ evs2, ?_, ?_, ?_⟩
            · rw [compare_directories.eq_def]
              simp [hcmp, report_recursively_ok _ path old_name old_node ho1,
                hcd]
            · intro e he
              rcases List.mem_append.mp he with he | he
              · obtain ⟨rest, hr⟩ := (flatten_spec _ path old_name old_node).2.2 e he
                exact ⟨old_name, rest, Or.inl (by simp [namesOf]), hr⟩
              · obtain ⟨m, rest, hm, hr⟩ := hpre e he
                refine ⟨m, rest, ?_, hr⟩
                rcases hm with hm | hm
                · exact Or.inl (by simp [namesOf, hm])
                · exact Or.inr hm
            · intro p hp
              rcases List.mem_append.mp hp with hp | hp
              · exact absurd hp (fun hp => flatten_no_cmp _ _ _ _ _ hp)
              · exact hcmp2 p hp
          | gt =>
            have hsz : sizeOf (EntryList.cons old_name old_node orest)
                  + sizeOf nrest <
                sizeOf (EntryList.cons old_name old_node orest)
                  + sizeOf (EntryList.cons new_name new_node nrest) := by
              simp <;> omega
            obtain ⟨evs2, hcd, hpre, hcmp2⟩ := (ih _ hk).2 policy path
              (.cons old_name old_node orest) nrest hsz (by
                simp only [okDeepL, Bool.and_eq_true]; exact ⟨ho1, ho2⟩) hn2
            refine ⟨flatten FSTATE_CHANGED_ADDED path new_name new_node
              ++ evs2, ?_, ?_, ?_⟩
            · rw [compare_directories.eq_def]
              simp [hcmp, report_recursively_ok _ path new_name new_node hn1,
                hcd]
            · intro e he
              rcases List.mem_append.mp he with he | he
              · obtain ⟨rest, hr⟩ := (flatten_spec _ path new_name new_node).2.2 e he
                exact ⟨new_name, rest, Or.inr (by simp [namesOf]), hr⟩
              · obtain ⟨m, rest, hm, hr⟩ := hpre e he
                refine ⟨m, rest, ?_, hr⟩
                rcases hm with hm | hm
                · exact Or.inl hm
                · exact Or.inr (by simp [namesOf, hm])
            · intro p hp
              rcases List.mem_append.mp hp with hp | hp
              · exact absurd hp (fun hp => flatten_no_cmp _ _ _ _ _ hp)
              · exact hcmp2 p hp
          | eq =>
            have hsz1 : sizeOf old_node + sizeOf new_node <
                sizeOf (EntryList.cons old_name old_node orest)
                  + sizeOf (EntryList.cons new_name new_node nrest) := by
              simp <;> omega
            have hsz2 : sizeOf orest + sizeOf nrest <
                sizeOf (EntryList.cons old_name old_node orest)
                  + sizeOf (EntryList.cons new_name new_node nrest) := by
              simp <;> omega
            obtain ⟨evs1, hcf, hpre1, hcmp1⟩ :=
              (ih _ hk).1 policy path old_name old_node new_node hsz1 ho1 hn1
            obtain ⟨evs2, hcd, hpre2, hcmp2⟩ :=
              (ih _ hk).2 policy path orest nrest hsz2 ho2 hn2
            refine ⟨Event.cmp (path ++ [old_name]) :: (evs1 ++ evs2),
              ?_, ?_, ?_⟩
            · rw [compare_directories.eq_def]
              simp [hcmp, hcf, hcd]
            · intro e he
              rcases List.mem_cons.mp he with he | he
              · subst he
                exact ⟨old_name, [], Or.inl (by simp [namesOf]),
                  by simp [evPath]⟩
              · rcases List.mem_append.mp he with he | he
                · obtain ⟨rest, hr⟩ := hpre1 e he
                  exact ⟨old_name, rest, Or.inl (by simp [namesOf]), hr⟩
                · obtain ⟨m, rest, hm, hr⟩ := hpre2 e he
                  refine ⟨m, rest, ?_, hr⟩
                  rcases hm with hm | hm
                  · exact Or.inl (by simp [namesOf, hm])
                  · exact Or.inr (by simp [namesOf, hm])
            · intro p hp
              rcases List.mem_cons.mp hp with hp | hp
              · have : p = path ++ [old_name] := by
                  simpa using hp
                subst this
                simp
              · rcases List.mem_append.mp hp with hp | hp
                · have := hcmp1 p hp
                  omega
                · exact hcmp2 p hp

theorem headName_of_path {e : Event} {m : Name} {rest : List Name}
    (h : evPath e = m :: rest) : headName e = m := by
  simp [headName, h]

theorem filter_cmp_len_zero {evs : List Event} {n : Name}
    (h : ∀ e ∈ evs, e ≠ Event.cmp [n]) :
    (evs.filter fun e => decide (e = Event.cmp [n])).length = 0 := by
  have : evs.filter (fun e => decide (e = Event.cmp [n])) = [] :=
    List.filter_eq_nil_iff.mpr (fun a ha => by simpa using h a ha)
  simp [this]

/-- Filtering a one-sided flattened listing by a present top-level name
isolates exactly that name's block, and the heads of the whole listing are
weakly ascending; used for the drained endgames of the merge-walk. -/
theorem flattenL_filterHead : ∀ (how : Nat) (l : EntryList),
    sortedB l = true →
    (∀ n nd, lookupE l n = some nd →
      filterHead n (flattenL how [] l) = flatten how [] n nd)
    ∧ List.Chain' (fun a b => strcmpO a b ≠ Ordering.gt)
        ((flattenL how [] l).map headName)
  | how, .nil, _ => by
    rw [flattenL]
    exact ⟨fun n nd h => by simp [lookupE] at h, by simp⟩
  | how, .cons nm nd rest, hs => by
    obtain ⟨hsrest, hlt⟩ := sortedB_inv nm nd rest hs
    have ihr := flattenL_filterHead how rest hsrest
    rw [flattenL]
    have hheadsblock : ∀ e ∈ flatten how [] nm nd, (evPath e).head? = some nm := by
      intro e he
      obtain ⟨r, hr⟩ := (flatten_spec how [] nm nd).2.2 e he
      simp at hr
      simp [hr]
    have hheadsrest : ∀ e ∈ flattenL how [] rest,
        ∃ m, m ∈ namesOf rest ∧ (evPath e).head? = some m := by
      intro e he
      obtain ⟨m, r, hm, hr⟩ := (flattenL_spec how [] rest).2.2 e he
      simp at hr
      exact ⟨m, hm, by simp [hr]⟩
    constructor
    · intro n node hlook
      rw [lookupE] at hlook
      by_cases hn : n = nm
      · subst hn
        rw [if_pos rfl] at hlook
        injection hlook with hlook
        subst hlook
        rw [filterHead_append]
        rw [filterHead_all_match n _ (fun e he => by
          obtain ⟨r, hr⟩ := (flatten_spec how [] n nd).2.2 e he
          exact ⟨r, by simpa using hr⟩)]
        rw [filterHead_none n _ (fun e he => by
          obtain ⟨m, hm, hh⟩ := hheadsrest e he
          rw [hh]
          intro hc
          injection hc with hc
          exact strcmpO_lt_ne (hlt m hm) hc.symm)]
        simp
      · rw [if_neg hn] at hlook
        rw [filterHead_append]
        rw [filterHead_none n _ (fun e he => by
          rw [hheadsblock e he]
          intro hc
          injection hc with hc
          exact hn hc.symm)]
        rw [(ihr.1) n node hlook]
        simp
    · rw [List.map_append]
      refine List.Chain'.append ?_ ihr.2 ?_
      · exact chain'_of_all_eq (fun x hx => by
          obtain ⟨e, he, rfl⟩ := List.mem_map.mp hx
          obtain ⟨r, hr⟩ := (flatten_spec how [] nm nd).2.2 e he
          simp at hr
          exact headName_of_path hr) (by simp [strcmpO_self])
      · intro x hx y hy
        have hxm := List.mem_of_mem_getLast? hx
        obtain ⟨e, he, rfl⟩ := List.mem_map.mp hxm
        obtain ⟨r, hr⟩ := (flatten_spec how [] nm nd).2.2 e he
        simp at hr
        rw [headName_of_path hr]
        have hym := List.mem_of_mem_head? hy
        obtain ⟨e2, he2, rfl⟩ := List.mem_map.mp hym
        obtain ⟨m2, hm2, hh2⟩ := hheadsrest e2 he2
        have heq2 : headName e2 = m2 := by
          simp only [headName]
          cases hpe : evPath e2 with
          | nil => rw [hpe] at hh2; simp at hh2
          | cons a b =>
            rw [hpe] at hh2
            simp at hh2
            simp [hh2]
        rw [heq2]
        rw [hlt m2 hm2]
        simp
termination_by how l => sizeOf l

theorem filterHead_cons_neg {n : Name} {e : Event} {evs : List Event}
    (h : (evPath e).head? ≠ some n) :
    filterHead n (e :: evs) = filterHead n evs := by
  rw [filterHead, List.filter_cons, if_neg (by simpa using h)]
  rfl

/-- Main induction for the merge-walk (claim C1): on sorted, fully readable
snapshots the walk succeeds, every name present only in the old (resp. new)
snapshot contributes exactly its flattened removed (resp. added) block, every
matched name triggers exactly one single-pair comparison, the top-level names
of the emitted events ascend weakly, and every event is headed by a name of
one of the snapshots. -/
theorem merge_master : ∀ k : Nat, ∀ (policy : Bool) (olds news : EntryList),
    sizeOf olds + sizeOf news < k →
    sortedB olds = true → sortedB news = true →
    okDeepL olds = true → okDeepL news = true →
    ∃ evs, compare_directories policy [] olds news = some (evs, true)
      ∧ (∀ n nd, lookupE olds n = some nd → lookupE news n = none →
          filterHead n evs = flatten FSTATE_CHANGED_REMOVED [] n nd)
      ∧ (∀ n nd, lookupE news n = some nd → lookupE olds n = none →
          filterHead n evs = flatten FSTATE_CHANGED_ADDED [] n nd)
      ∧ (∀ n nd1 nd2, lookupE olds n = some nd1 → lookupE news n = some nd2 →
          (evs.filter fun e => decide (e = Event.cmp [n])).length = 1)
      ∧ List.Chain' (fun a b => strcmpO a b ≠ Ordering.gt) (evs.map headName)
      ∧ (∀ e ∈ evs, ∃ m rest,
          (m ∈ namesOf olds ∨ m ∈ namesOf news) ∧ evPath e = m :: rest) := by
  intro k
  induction k using Nat.strong_induction_on with
  | _ k ih =>
    intro policy olds news hk hso hsn hoo hon
    cases olds with
    | nil =>
      refine ⟨flattenL FSTATE_CHANGED_ADDED [] news, ?_, ?_, ?_, ?_, ?_, ?_⟩
      · rw [compare_directories.eq_def]
        cases news with
        | nil => simp [drain_ok FSTATE_CHANGED_ADDED [] .nil hon]
        | cons a b c => simp [drain_ok FSTATE_CHANGED_ADDED [] _ hon]
      · intro n nd hlo _
        simp [lookupE] at hlo
      · intro n nd hln _
        exact (flattenL_filterHead FSTATE_CHANGED_ADDED news hsn).1 n nd hln
      · intro n nd1 nd2 hlo _
        simp [lookupE] at hlo
      · exact (flattenL_filterHead FSTATE_CHANGED_ADDED news hsn).2
      · intro e he
        obtain ⟨m, rest, hm, hr⟩ :=
          (flattenL_spec FSTATE_CHANGED_ADDED [] news).2.2 e he
        exact ⟨m, rest, Or.inr hm, by simpa using hr⟩
    | cons old_name old_node orest =>
      cases news with
      | nil =>
        refine ⟨flattenL FSTATE_CHANGED_REMOVED []
          (.cons old_name old_node orest), ?_, ?_, ?_, ?_, ?_, ?_⟩
        · rw [compare_directories.eq_def]
          simp [drain_ok FSTATE_CHANGED_REMOVED [] _ hoo]
        · intro n nd hlo _
          exact (flattenL_filterHead FSTATE_CHANGED_REMOVED _ hso).1 n nd hlo
        · intro n nd hln _
          simp [lookupE] at hln
        · intro n nd1 nd2 _ hln
          simp [lookupE] at hln
        · exact (flattenL_filterHead FSTATE_CHANGED_REMOVED _ hso).2
        · intro e he
          obtain ⟨m, rest, hm, hr⟩ :=
            (flattenL_spec FSTATE_CHANGED_REMOVED [] _).2.2 e he
          exact ⟨m, rest, Or.inl hm, by simpa using hr⟩
      | cons new_name new_node nrest =>
        obtain ⟨hso2, hsolt⟩ := sortedB_inv old_name old_node orest hso
        obtain ⟨hsn2, hsnlt⟩ := sortedB_inv new_name new_node nrest hsn
        simp only [okDeepL, Bool.and_eq_true] at hoo hon
        obtain ⟨hoo1, hoo2⟩ := hoo
        obtain ⟨hon1, hon2⟩ := hon
        cases hcmp : strcmpO old_name new_name with
        | lt =>
          have hltnews : ∀ m ∈ namesOf (EntryList.cons new_name new_node nrest),
              strcmpO old_name m = .lt := by
            intro m hm
            rw [namesOf] at hm
            rcases List.mem_cons.mp hm with hm | hm
            · subst hm; exact hcmp
            · exact strcmpO_lt_trans hcmp (hsnlt m hm)
          have hltall : ∀ m, (m ∈ namesOf orest
                ∨ m ∈ namesOf (EntryList.cons new_name new_node nrest)) →
              strcmpO old_name m = .lt := by
            intro m hm
            rcases hm with hm | hm
            · exact hsolt m hm
            · exact hltnews m hm
          have hsz : sizeOf orest
                + sizeOf (EntryList.cons new_name new_node nrest) <
              sizeOf (EntryList.cons old_name old_node orest)
                + sizeOf (EntryList.cons new_name new_node nrest) := by
            simp <;> omega
          obtain ⟨evs2, hcd2, hA2, hB2, hC2, hD2, hE2⟩ := ih _ hk policy orest
            (.cons new_name new_node nrest) hsz hso2 hsn
            hoo2 (by simp only [okDeepL, Bool.and_eq_true]; exact ⟨hon1, hon2⟩)
          have hblockhead : ∀ e ∈ flatten FSTATE_CHANGED_REMOVED []
              old_name old_node, (evPath e).head? = some old_name := by
            intro e he
            obtain ⟨r, hr⟩ := (flatten_spec _ [] old_name old_node).2.2 e he
            simp at hr
            simp [hr]
          have hresthead : ∀ e ∈ evs2, ∃ m, (m ∈ namesOf orest
              ∨ m ∈ namesOf (EntryList.cons new_name new_node nrest))
              ∧ (evPath e).head? = some m := by
            intro e he
            obtain ⟨m, rest, hm, hr⟩ := hE2 e he
            exact ⟨m, hm, by simp [hr]⟩
          refine ⟨flatten FSTATE_CHANGED_REMOVED [] old_name old_node ++ evs2,
            ?_, ?_, ?_, ?_, ?_, ?_⟩
          · rw [compare_directories.eq_def]
            simp [hcmp,
              report_recursively_ok _ [] old_name old_node hoo1, hcd2]
          · intro n nd hlo hln
            rw [lookupE] at hlo
            by_cases hn : n = old_name
            · subst hn
              rw [if_pos rfl] at hlo
              injection hlo with hlo
              subst hlo
              rw [filterHead_append]
              rw [filterHead_all_match n _ (fun e he => by
                obtain ⟨r, hr⟩ := (flatten_spec _ [] n old_node).2.2 e he
                exact ⟨r, by simpa using hr⟩)]
              rw [filterHead_none n _ (fun e he => by
                obtain ⟨m, hm, hh⟩ := hresthead e he
                rw [hh]
                intro hc
                injection hc with hc
                exact strcmpO_lt_ne (hltall m hm) hc.symm)]
              simp
            · rw [if_neg hn] at hlo
              rw [filterHead_append]
              rw [filterHead_none n _ (fun e he => by
                rw [hblockhead e he]
                intro hc
                injection hc with hc
                exact hn hc.symm)]
              rw [hA2 n nd hlo hln]
              simp
          · intro n nd hln hlo
            have hne : n ≠ old_name := by
              intro hn
              subst hn
              rw [lookupE, if_pos rfl] at hlo
              simp at hlo
            rw [lookupE, if_neg hne] at hlo
            rw [filterHead_append]
            rw [filterHead_none n _ (fun e he => by
              rw [hblockhead e he]
              intro hc
              injection hc with hc
              exact hne hc.symm)]
            rw [hB2 n nd hln hlo]
            simp
          · intro n nd1 nd2 h1 h2
            have hne : n ≠ old_name := by
              intro hn
              subst hn
              exact strcmpO_lt_ne (hltnews n (lookupE_mem h2)) rfl
            rw [lookupE, if_neg hne] at h1
            rw [List.filter_append, List.length_append]
            rw [hC2 n nd1 nd2 h1 h2]
            have hz := @filter_cmp_len_zero
              (flatten FSTATE_CHANGED_REMOVED [] old_name old_node) n
              (fun e he => by
                obtain ⟨p, ft, hpf⟩ := (flatten_spec _ [] old_name
                  old_node).2.1 e he
                subst hpf
                simp)
            omega
          · rw [List.map_append]
            refine List.Chain'.append ?_ hD2 ?_
            · exact chain'_of_all_eq (fun x hx => by
                obtain ⟨e, he, rfl⟩ := List.mem_map.mp hx
                obtain ⟨r, hr⟩ := (flatten_spec _ [] old_name old_node).2.2 e he
                simp at hr
                exact headName_of_path hr) (by simp [strcmpO_self])
            · intro x hx y hy
              have hxm := List.mem_of_mem_getLast? hx
              obtain ⟨e, he, rfl⟩ := List.mem_map.mp hxm
              obtain ⟨r, hr⟩ := (flatten_spec _ [] old_name old_node).2.2 e he
              simp at hr
              rw [headName_of_path hr]
              have hym := List.mem_of_mem_head? hy
              obtain ⟨e2, he2, rfl⟩ := List.mem_map.mp hym
              obtain ⟨m2, rest2, hm2, hr2⟩ := hE2 e2 he2
              rw [headName_of_path hr2]
              rw [hltall m2 hm2]
              simp
          · intro e he
            rcases List.mem_append.mp he with he | he
            · obtain ⟨r, hr⟩ := (flatten_spec _ [] old_name old_node).2.2 e he
              exact ⟨old_name, r, Or.inl (by simp [namesOf]),
                by simpa using hr⟩
            · obtain ⟨m, rest, hm, hr⟩ := hE2 e he
              refine ⟨m, rest, ?_, hr⟩
              rcases hm with hm | hm
              · exact Or.inl (by simp [namesOf, hm])
              · exact Or.inr hm
        | gt =>
          have hgt : strcmpO new_name old_name = .lt := by
            rw [strcmpO_swap, hcmp]
            rfl
          have hltolds : ∀ m ∈ namesOf (EntryList.cons old_name old_node orest),
              strcmpO new_name m = .lt := by
            intro m hm
            rw [namesOf] at hm
            rcases List.mem_cons.mp hm with hm | hm
            · subst hm; exact hgt
            · exact strcmpO_lt_trans hgt (hsolt m hm)
          have hltall : ∀ m, (m ∈ namesOf (EntryList.cons old_name old_node
                orest) ∨ m ∈ namesOf nrest) →
              strcmpO new_name m = .lt := by
            intro m hm
            rcases hm with hm | hm
            · exact hltolds m hm
            · exact hsnlt m hm
          have hsz : sizeOf (EntryList.cons old_name old_node orest)
                + sizeOf nrest <
              sizeOf (EntryList.cons old_name old_node orest)
                + sizeOf (EntryList.cons new_name new_node nrest) := by
            simp <;> omega
          obtain ⟨evs2, hcd2, hA2, hB2, hC2, hD2, hE2⟩ := ih _ hk policy
            (.cons old_name old_node orest) nrest hsz hso hsn2
            (by simp only [okDeepL, Bool.and_eq_true]; exact ⟨hoo1, hoo2⟩) hon2
          have hblockhead : ∀ e ∈ flatten FSTATE_CHANGED_ADDED []
              new_name new_node, (evPath e).head? = some new_name := by
            intro e he
            obtain ⟨r, hr⟩ := (flatten_spec _ [] new_name new_node).2.2 e he
            simp at hr
            simp [hr]
          have hresthead : ∀ e ∈ evs2, ∃ m,
              (m ∈ namesOf (EntryList.cons old_name old_node orest)
                ∨ m ∈ namesOf nrest)
              ∧ (evPath e).head? = some m := by
            intro e he
            obtain ⟨m, rest, hm, hr⟩ := hE2 e he
            exact ⟨m, hm, by simp [hr]⟩
          refine ⟨flatten FSTATE_CHANGED_ADDED [] new_name new_node ++ evs2,
            ?_, ?_, ?_, ?_, ?_, ?_⟩
          · rw [compare_directories.eq_def]
            simp [hcmp,
              report_recursively_ok _ [] new_name new_node hon1, hcd2]
          · intro n nd hlo hln
            have hne : n ≠ new_name := by
              intro hn
              subst hn
              rw [lookupE, if_pos rfl] at hln
              simp at hln
            rw [lookupE, if_neg hne] at hln
            rw [filterHead_append]
            rw [filterHead_none n _ (fun e he => by
              rw [hblockhead e he]
              intro hc
              injection hc with hc
              exact hne hc.symm)]
            rw [hA2 n nd hlo hln]
            simp
          · intro n nd hln hlo
            rw [lookupE] at hln
            by_cases hn : n = new_name
            · subst hn
              rw [if_pos rfl] at hln
              injection hln with hln
              subst hln
              rw [filterHead_append]
              rw [filterHead_all_match n _ (fun e he => by
                obtain ⟨r, hr⟩ := (flatten_spec _ [] n new_node).2.2 e he
                exact ⟨r, by simpa using hr⟩)]
              rw [filterHead_none n _ (fun e he => by
                obtain ⟨m, hm, hh⟩ := hresthead e he
                rw [hh]
                intro hc
                injection hc with hc
                exact strcmpO_lt_ne (hltall m hm) hc.symm)]
              simp
            · rw [if_neg hn] at hln
              rw [filterHead_append]
              rw [filterHead_none n _ (fun e he => by
                rw [hblockhead e he]
                intro hc
                injection hc with hc
                exact hn hc.symm)]
              rw [hB2 n nd hln hlo]
              simp
          · intro n nd1 nd2 h1 h2
            have hne : n ≠ new_name := by
              intro hn
              subst hn
              exact strcmpO_lt_ne (hltolds n (lookupE_mem h1)) rfl
            rw [lookupE, if_neg hne] at h2
            rw [List.filter_append, List.length_append]
            rw [hC2 n nd1 nd2 h1 h2]
            have hz := @filter_cmp_len_zero
              (flatten FSTATE_CHANGED_ADDED [] new_name new_node) n
              (fun e he => by
                obtain ⟨p, ft, hpf⟩ := (flatten_spec _ [] new_name
                  new_node).2.1 e he
                subst hpf
                simp)
            omega
          · rw [List.map_append]
            refine List.Chain'.append ?_ hD2 ?_
            · exact chain'_of_all_eq (fun x hx => by
                obtain ⟨e, he, rfl⟩ := List.mem_map.mp hx
                obtain ⟨r, hr⟩ := (flatten_spec _ [] new_name new_node).2.2 e he
                simp at hr
                exact headName_of_path hr) (by simp [strcmpO_self])
            · intro x hx y hy
              have hxm := List.mem_of_mem_getLast? hx
              obtain ⟨e, he, rfl⟩ := List.mem_map.mp hxm
              obtain ⟨r, hr⟩ := (flatten_spec _ [] new_name new_node).2.2 e he
              simp at hr
              rw [headName_of_path hr]
              have hym := List.mem_of_mem_head? hy
              obtain ⟨e2, he2, rfl⟩ := List.mem_map.mp hym
              obtain ⟨m2, rest2, hm2, hr2⟩ := hE2 e2 he2
              rw [headName_of_path hr2]
              rw [hltall m2 hm2]
              simp
          · intro e he
            rcases List.mem_append.mp he with he | he
            · obtain ⟨r, hr⟩ := (flatten_spec _ [] new_name new_node).2.2 e he
              exact ⟨new_name, r, Or.inr (by simp [namesOf]),
                by simpa using hr⟩
            · obtain ⟨m, rest, hm, hr⟩ := hE2 e he
              refine ⟨m, rest, ?_, hr⟩
              rcases hm with hm | hm
              · exact Or.inl hm
              · exact Or.inr (by simp [namesOf, hm])
        | eq =>
          have heqn : old_name = new_name := (strcmpO_eq_iff _ _).mp hcmp
          subst heqn
          have honm_old : old_name ∉ namesOf orest := by
            intro hm
            exact strcmpO_lt_ne (hsolt _ hm) rfl
          have honm_new : old_name ∉ namesOf nrest := by
            intro hm
            exact strcmpO_lt_ne (hsnlt _ hm) rfl
          obtain ⟨evs1, hcf, hpre1, hcmp1⟩ :=
            (compare_ok_aux (sizeOf old_node + sizeOf new_node + 1)).1 policy
              [] old_name old_node new_node (by omega) hoo1 hon1
          have hsz : sizeOf orest + sizeOf nrest <
              sizeOf (EntryList.cons old_name old_node orest)
                + sizeOf (EntryList.cons old_name new_node nrest) := by
            simp <;> omega
          obtain ⟨evs2, hcd2, hA2, hB2, hC2, hD2, hE2⟩ :=
            ih _ hk policy orest nrest hsz hso2 hsn2 hoo2 hon2
          have hpre1h : ∀ e ∈ evs1, (evPath e).head? = some old_name := by
            intro e he
            obtain ⟨r, hr⟩ := hpre1 e he
            simp at hr
            simp [hr]
          have hresthead : ∀ e ∈ evs2, ∃ m,
              (m ∈ namesOf orest ∨ m ∈ namesOf nrest)
              ∧ (evPath e).head? = some m := by
            intro e he
            obtain ⟨m, rest, hm, hr⟩ := hE2 e he
            exact ⟨m, hm, by simp [hr]⟩
          have hltall : ∀ m, (m ∈ namesOf orest ∨ m ∈ namesOf nrest) →
              strcmpO old_name m = .lt := by
            intro m hm
            rcases hm with hm | hm
            · exact hsolt m hm
            · exact hsnlt m hm
          refine ⟨Event.cmp [old_name] :: (evs1 ++ evs2), ?_, ?_, ?_, ?_,
            ?_, ?_⟩
          · rw [compare_directories.eq_def]
            simp [hcmp, hcf, hcd2]
          · intro n nd hlo hln
            have hne : n ≠ old_name := by
              intro hn
              subst hn
              rw [lookupE, if_pos rfl] at hln
              simp at hln
            rw [lookupE, if_neg hne] at hlo
            rw [lookupE, if_neg hne] at hln
            rw [filterHead_cons_neg (by
              simp only [evPath, List.head?]
              intro hc
              injection hc with hc
              exact hne hc.symm)]
            rw [filterHead_append]
            rw [filterHead_none n _ (fun e he => by
              rw [hpre1h e he]
              intro hc
              injection hc with hc
              exact hne hc.symm)]
            rw [hA2 n nd hlo hln]
            simp
          · intro n nd hln hlo
            have hne : n ≠ old_name := by
              intro hn
              subst hn
              rw [lookupE, if_pos rfl] at hlo
              simp at hlo
            rw [lookupE, if_neg hne] at hln
            rw [lookupE, if_neg hne] at hlo
            rw [filterHead_cons_neg (by
              simp only [evPath, List.head?]
              intro hc
              injection hc with hc
              exact hne hc.symm)]
            rw [filterHead_append]
            rw [filterHead_none n _ (fun e he => by
              rw [hpre1h e he]
              intro hc
              injection hc with hc
              exact hne hc.symm)]
            rw [hB2 n nd hln hlo]
            simp
          · intro n nd1 nd2 h1 h2
            have hz1 : ((evs1.filter
                fun e => decide (e = Event.cmp [n]))).length = 0 :=
              filter_cmp_len_zero (fun e he hc => by
                subst hc
                have := hcmp1 [n] he
                simp at this)
            by_cases hn : n = old_name
            · subst hn
              have hz2 : ((evs2.filter
                  fun e => decide (e = Event.cmp [n]))).length = 0 :=
                filter_cmp_len_zero (fun e he hc => by
                  subst hc
                  obtain ⟨m, rest, hm, hr⟩ := hE2 _ he
                  simp only [evPath] at hr
                  have hmn : m = n := by
                    injection hr with h1 h2
                    exact h1.symm
                  subst hmn
                  rcases hm with hm | hm
                  · exact honm_old hm
                  · exact honm_new hm)
              rw [List.filter_cons, if_pos (by simp)]
              rw [List.length_cons, List.filter_append, List.length_append]
              omega
            · rw [lookupE, if_neg hn] at h1
              rw [lookupE, if_neg hn] at h2
              rw [List.filter_cons, if_neg (by
                simp only [decide_eq_true_eq]
                intro hc
                injection hc with hc
                injection hc with hc
                exact hn hc.symm)]
              rw [List.filter_append, List.length_append]
              rw [hC2 n nd1 nd2 h1 h2]
              omega
          · have hmap : (Event.cmp [old_name] :: (evs1 ++ evs2)).map headName
                = (old_name :: evs1.map headName) ++ evs2.map headName := by
              simp [headName, evPath]
            rw [hmap]
            refine List.Chain'.append ?_ hD2 ?_
            · exact chain'_of_all_eq (fun x hx => by
                rcases List.mem_cons.mp hx with hx | hx
                · exact hx
                · obtain ⟨e, he, rfl⟩ := List.mem_map.mp hx
                  obtain ⟨r, hr⟩ := hpre1 e he
                  simp at hr
                  exact headName_of_path hr) (by simp [strcmpO_self])
            · intro x hx y hy
              have hxm := List.mem_of_mem_getLast? hx
              have hxo : x = old_name := by
                rcases List.mem_cons.mp hxm with hx2 | hx2
                · exact hx2
                · obtain ⟨e, he, rfl⟩ := List.mem_map.mp hx2
                  obtain ⟨r, hr⟩ := hpre1 e he
                  simp at hr
                  exact headName_of_path hr
              subst hxo
              have hym := List.mem_of_mem_head? hy
              obtain ⟨e2, he2, rfl⟩ := List.mem_map.mp hym
              obtain ⟨m2, rest2, hm2, hr2⟩ := hE2 e2 he2
              rw [headName_of_path hr2]
              rw [hltall m2 hm2]
              simp
          · intro e he
            rcases List.mem_cons.mp he with he | he
            · subst he
              exact ⟨old_name, [], Or.inl (by simp [namesOf]),
                by simp [evPath]⟩
            · rcases List.mem_append.mp he with he | he
              · obtain ⟨r, hr⟩ := hpre1 e he
                exact ⟨old_name, r, Or.inl (by simp [namesOf]),
                  by simpa using hr⟩
              · obtain ⟨m, rest, hm, hr⟩ := hE2 e he
                refine ⟨m, rest, ?_, hr⟩
                rcases hm with hm | hm
                · exact Or.inl (by simp [namesOf, hm])
                · exact Or.inr (by simp [namesOf, hm])

/-- Claim C1.  For sorted, fully readable directory snapshots, the
merge-walk succeeds and: every name present only in the old snapshot is
reported as removed exactly once, recursively once per descendant (its
block's report paths are exactly the subtree paths, one per node, and every
report of the block carries the removed disposition); symmetrically for
names present only in the new snapshot (added); every name present in both
snapshots triggers exactly one invocation of the single-pair comparison
(one cmp marker with that name's path); and the top-level names of the
emitted reports ascend weakly in byte-wise order. -/
theorem C1_merge_walk (policy : Bool) (olds news : EntryList)
    (hso : sortedB olds = true) (hsn : sortedB news = true)
    (hoo : okDeepL olds = true) (hon : okDeepL news = true) :
    ∃ evs, compare_directories policy [] olds news = some (evs, true)
      ∧ (∀ n nd, lookupE olds n = some nd → lookupE news n = none →
          filterHead n evs = flatten FSTATE_CHANGED_REMOVED [] n nd
          ∧ (flatten FSTATE_CHANGED_REMOVED [] n nd).map evPath
              = subtreePaths [] n nd
          ∧ ∀ e ∈ flatten FSTATE_CHANGED_REMOVED [] n nd,
              ∃ p ft, e = Event.rpt ⟨FSTATE_CHANGED_REMOVED, p, ft⟩)
      ∧ (∀ n nd, lookupE news n = some nd → lookupE olds n = none →
          filterHead n evs = flatten FSTATE_CHANGED_ADDED [] n nd
          ∧ (flatten FSTATE_CHANGED_ADDED [] n nd).map evPath
              = subtreePaths [] n nd
          ∧ ∀ e ∈ flatten FSTATE_CHANGED_ADDED [] n nd,
              ∃ p ft, e = Event.rpt ⟨FSTATE_CHANGED_ADDED, p, ft⟩)
      ∧ (∀ n nd1 nd2, lookupE olds n = some nd1 → lookupE news n = some nd2 →
          (evs.filter fun e => decide (e = Event.cmp [n])).length = 1)
      ∧ List.Chain' (fun a b => strcmpO a b ≠ Ordering.gt)
          (evs.map headName) := by
  obtain ⟨evs, hcd, hA, hB, hC, hD, _⟩ :=
    merge_master (sizeOf olds + sizeOf news + 1) policy olds news (by omega)
      hso hsn hoo hon
  exact ⟨evs, hcd,
    fun n nd h1 h2 => ⟨hA n nd h1 h2, (flatten_spec _ [] n nd).1,
      (flatten_spec _ [] n nd).2.1⟩,
    fun n nd h1 h2 => ⟨hB n nd h1 h2, (flatten_spec _ [] n nd).1,
      (flatten_spec _ [] n nd).2.1⟩,
    hC, hD⟩

/-- Claim C1, witness: the old snapshot holds names 97 and 98, the new one
98 and 99, all entries readable; 97 is only-old, 99 is only-new, 98 is
matched. -/
theorem C1_merge_walk_witness :
    ∃ evs, compare_directories false []
        (.cons [97] (.chr (some mA))
          (.cons [98] (.reg (some mA) true none [.ok [5]]) .nil))
        (.cons [98] (.reg (some mA) true none [.ok [5]])
          (.cons [99] (.chr (some mA)) .nil)) = some (evs, true)
      ∧ (∀ n nd, lookupE (.cons [97] (.chr (some mA))
            (.cons [98] (.reg (some mA) true none [.ok [5]]) .nil)) n
              = some nd →
          lookupE (.cons [98] (.reg (some mA) true none [.ok [5]])
            (.cons [99] (.chr (some mA)) .nil)) n = none →
          filterHead n evs = flatten FSTATE_CHANGED_REMOVED [] n nd
          ∧ (flatten FSTATE_CHANGED_REMOVED [] n nd).map evPath
              = subtreePaths [] n nd
          ∧ ∀ e ∈ flatten FSTATE_CHANGED_REMOVED [] n nd,
              ∃ p ft, e = Event.rpt ⟨FSTATE_CHANGED_REMOVED, p, ft⟩)
      ∧ (∀ n nd, lookupE (.cons [98] (.reg (some mA) true none [.ok [5]])
            (.cons [99] (.chr (some mA)) .nil)) n = some nd →
          lookupE (.cons [97] (.chr (some mA))
            (.cons [98] (.reg (some mA) true none [.ok [5]]) .nil)) n
              = none →
          filterHead n evs = flatten FSTATE_CHANGED_ADDED [] n nd
          ∧ (flatten FSTATE_CHANGED_ADDED [] n nd).map evPath
              = subtreePaths [] n nd
          ∧ ∀ e ∈ flatten FSTATE_CHANGED_ADDED [] n nd,
              ∃ p ft, e = Event.rpt ⟨FSTATE_CHANGED_ADDED, p, ft⟩)
      ∧ (∀ n nd1 nd2, lookupE (.cons [97] (.chr (some mA))
            (.cons [98] (.reg (some mA) true none [.ok [5]]) .nil)) n
              = some nd1 →
          lookupE (.cons [98] (.reg (some mA) true none [.ok [5]])
            (.cons [99] (.chr (some mA)) .nil)) n = some nd2 →
          (evs.filter fun e => decide (e = Event.cmp [n])).length = 1)
      ∧ List.Chain' (fun a b => strcmpO a b ≠ Ordering.gt)
          (evs.map headName) :=
  C1_merge_walk false
    (.cons [97] (.chr (some mA))
      (.cons [98] (.reg (some mA) true none [.ok [5]]) .nil))
    (.cons [98] (.reg (some mA) true none [.ok [5]])
      (.cons [99] (.chr (some mA)) .nil))
    (by simp [sortedB, strcmpO]; rfl) (by simp [sortedB, strcmpO]; rfl)
    (by simp [okDeepL, okDeep]) (by simp [okDeepL, okDeep])

end Ftreecmp
